import Mathlib

/-!
# Verification of `src/data/strtonum.h` (namespace `dmlc::data`)

Shallow embedding of the character classifiers, `strtof`, `strtoint`,
`strtoull`, `atof`, the `Str2T` specializations and `ParsePair`.

* A `const char *` is modelled by the list of the characters stored from the
  pointed address up to the end of the allocation.  `*p` is the head of the
  list (`none` when the read falls outside the allocation), `++p` is the tail.
  Two pointers into the same allocation are equal exactly when their lists
  have the same length, and the offset `q - p` is `p.length - q.length`.
  A NUL-terminated input is a list that contains `NUL`.
* Every function returns an `Option`: `none` means that the scan read outside
  the allocation.  The loops are structural recursions on the list, so every
  function is total.
* Machine integers are mathematical integers reduced explicitly to the range of
  their type after each operation; signed overflow wraps (two's complement).
* `float` values are rational numbers (exact arithmetic); the `unsigned`
  variables `val2`, `pow10` and `expon` of `strtof` are integers reduced modulo
  `2^32`.

The file first gives the definitions translated from the source, then the
notions in which the specification is worded and the closed forms used in the
proofs, then the theorems.
-/

namespace dmlc.data

/-- The terminating character of a C string. -/
def NUL : Char := Char.ofNat 0

/-- `isspace(c)`: space, tab, carriage return, newline, form feed. -/
def isspace (c : Char) : Bool :=
  c == ' ' || c == '\t' || c == '\r' || c == '\n' || c == Char.ofNat 12

/-- `isblank(c)`: space or tab. -/
def isblank (c : Char) : Bool :=
  c == ' ' || c == '\t'

/-- `isdigit(c)`: `c >= '0' && c <= '9'`. -/
def isdigit (c : Char) : Bool :=
  decide ('0' ≤ c) && decide (c ≤ '9')

/-- `isdigits(c)`: a digit, `+`, `-` or `.`. -/
def isdigits (c : Char) : Bool :=
  (decide ('0' ≤ c) && decide (c ≤ '9')) || c == '+' || c == '-' || c == '.'

/-- The integer `*p - '0'`. -/
def digitVal (c : Char) : Int := (c.toNat : Int) - 48

/-- The instantiations of the type parameter `V` of `strtoint`:
`int`, `int64_t` and `uint64_t`. -/
inductive IntType where
  | int
  | int64_t
  | uint64_t
deriving DecidableEq, Repr

/-- Number of values of the machine type. -/
def IntType.modulus : IntType → Int
  | .int => 2 ^ 32
  | .int64_t => 2 ^ 64
  | .uint64_t => 2 ^ 64

/-- Least value of the machine type. -/
def IntType.minVal : IntType → Int
  | .int => -2 ^ 31
  | .int64_t => -2 ^ 63
  | .uint64_t => 0

/-- Reduction of a mathematical integer to the range of the machine type
(two's complement wrap-around for the signed types). -/
def IntType.wrap (V : IntType) (x : Int) : Int :=
  (x - V.minVal) % V.modulus + V.minVal

/-- The values representable in the machine type. -/
def IntType.inRange (V : IntType) (x : Int) : Prop :=
  V.minVal ≤ x ∧ x < V.minVal + V.modulus

instance (V : IntType) (x : Int) : Decidable (V.inRange x) := by
  unfold IntType.inRange; infer_instance

/-- The loop `while (isspace(*p)) ++p;`. -/
def skipSpace : List Char → Option (List Char)
  | [] => none
  | c :: p => if isspace c then skipSpace p else some (c :: p)

/-- The sign block shared by `strtof` and `strtoint`:
`if (*p == '-') { sign = false; ++p; } else if (*p == '+') { ++p; }`. -/
def getSign : List Char → Option (Bool × List Char)
  | [] => none
  | c :: p =>
    if c = '-' then some (false, p)
    else if c = '+' then some (true, p)
    else some (true, c :: p)

/-- The loop `for (value = 0; isdigit(*p); ++p) value = value * base + (*p - '0');`
of `strtoint<V>`, started with the given `value`. -/
def intDigits (V : IntType) (base : Int) : List Char → Int → Option (Int × List Char)
  | [], _ => none
  | c :: p, value =>
    if isdigit c then intDigits V base p (V.wrap (value * base + digitVal c))
    else some (value, c :: p)

/-- `strtoint<V>(nptr, &endptr, base)`: the returned value and `endptr`. -/
def strtoint (V : IntType) (nptr : List Char) (base : Int) : Option (Int × List Char) := do
  let p ← skipSpace nptr
  let (sign, p) ← getSign p
  let (value, p) ← intDigits V base p 0
  pure (if sign then value else V.wrap (-value), p)

/-- `strtoull(nptr, &endptr, base)`. -/
def strtoull (nptr : List Char) (base : Int) : Option (Int × List Char) :=
  strtoint .uint64_t nptr base

/-- The arithmetic of `unsigned`: reduction modulo `2^32`. -/
def wrapU32 (x : Int) : Int := x % 2 ^ 32

/-- The loop `for (value = 0; isdigit(*p); ++p) value = value * 10.0 + (*p - '0');`
of `strtof`, started with the given `value` (exact arithmetic). -/
def floatDigits : List Char → Rat → Option (Rat × List Char)
  | [], _ => none
  | c :: p, value =>
    if isdigit c then floatDigits p (value * 10 + (digitVal c : Rat))
    else some (value, c :: p)

/-- The loop
`while (isdigit(*p)) { val2 = val2 * 10 + (*p - '0'); pow10 *= 10; ++p; }`
of `strtof` on the `unsigned` variables `val2` and `pow10`; returns
`(val2, pow10, p)`. -/
def fracDigits : List Char → Int → Int → Option (Int × Int × List Char)
  | [], _, _ => none
  | c :: p, val2, pow10 =>
    if isdigit c then fracDigits p (wrapU32 (val2 * 10 + digitVal c)) (wrapU32 (pow10 * 10))
    else some (val2, pow10, c :: p)

/-- The block `if (*p == '-') { frac = true; ++p; } else if (*p == '+') { ++p; }`
of `strtof`. -/
def getExpSign : List Char → Option (Bool × List Char)
  | [] => none
  | c :: p =>
    if c = '-' then some (true, p)
    else if c = '+' then some (false, p)
    else some (false, c :: p)

/-- The loop `for (expon = 0; isdigit(*p); p += 1) expon = expon * 10 + (*p - '0');`
of `strtof` on the `unsigned` variable `expon`, started with the given value. -/
def exponDigits : List Char → Int → Option (Int × List Char)
  | [], _ => none
  | c :: p, expon =>
    if isdigit c then exponDigits p (wrapU32 (expon * 10 + digitVal c))
    else some (expon, c :: p)

/-- The loop `while (expon >= 8) { scale *= 1E8; expon -= 8; }`; returns
`(scale, expon)`. -/
def scaleBy1E8 : Nat → Rat → Rat × Nat
  | expon + 8, scale => scaleBy1E8 expon (scale * 100000000)
  | expon, scale => (scale, expon)

/-- The loop `while (expon > 0) { scale *= 10.0; expon -= 1; }`; returns
`(scale, expon)`. -/
def scaleBy10 : Nat → Rat → Rat × Nat
  | expon + 1, scale => scaleBy10 expon (scale * 10)
  | 0, scale => (scale, 0)

/-- The scaling factor computed by `strtof` from the scanned exponent:
`if (expon > 38) expon = 38;` followed by the two scaling loops started
with `scale = 1.0`. -/
def exponScale (expon : Int) : Rat :=
  let expon := if expon > 38 then 38 else expon
  let (scale, expon) := scaleBy1E8 expon.toNat 1
  (scaleBy10 expon scale).1

/-- The block `if (*p == '.') { ... }` of `strtof`: returns the updated
`(value, p)`. -/
def fracPart (value : Rat) : List Char → Option (Rat × List Char)
  | [] => none
  | c :: p =>
    if c = '.' then do
      let (val2, pow10, p) ← fracDigits p 0 1
      pure (value + (val2 : Rat) / (pow10 : Rat), p)
    else some (value, c :: p)

/-- The block `if ((*p == 'e') || (*p == 'E')) { ... }` of `strtof`: returns the
updated `(value, p)`. -/
def exponPart (value : Rat) : List Char → Option (Rat × List Char)
  | [] => none
  | c :: p =>
    if c = 'e' ∨ c = 'E' then do
      let (frac, p) ← getExpSign p
      let (expon, p) ← exponDigits p 0
      let scale := exponScale expon
      pure (if frac then value / scale else value * scale, p)
    else some (value, c :: p)

/-- `strtof(nptr, &endptr)`: the returned value and `endptr`.  The value is
computed in exact rational arithmetic; a division by `pow10 = 0` follows the
convention `x / 0 = 0` of `Rat`. -/
def strtof (nptr : List Char) : Option (Rat × List Char) := do
  let p ← skipSpace nptr
  let (sign, p) ← getSign p
  let (value, p) ← floatDigits p 0
  let (value, p) ← fracPart value p
  let (value, p) ← exponPart value p
  pure (if sign then value else -value, p)

/-- `atof(nptr)`, that is `strtof(nptr, 0)`. -/
def atof (nptr : List Char) : Option Rat :=
  (strtof nptr).map Prod.fst

/-- The integer output types with a specialization of `Str2T`. -/
inductive IntOut where
  | int32_t
  | uint32_t
  | int64_t
  | uint64_t
deriving DecidableEq, Repr

/-- The output types with a specialization of `Str2T`: the four integer types
and `float`. -/
inductive NumType where
  | int (t : IntOut)
  | float
deriving DecidableEq, Repr

/-- The mathematical values of an output type. -/
abbrev NumType.Val : NumType → Type
  | .int _ => Int
  | .float => Rat

instance (T : NumType) : DecidableEq T.Val := by
  cases T <;> (unfold NumType.Val; infer_instance)

/-- The values representable in an integer output type. -/
def IntOut.inRange : IntOut → Int → Prop
  | .int32_t, x => -2 ^ 31 ≤ x ∧ x < 2 ^ 31
  | .uint32_t, x => 0 ≤ x ∧ x < 2 ^ 32
  | .int64_t, x => -2 ^ 63 ≤ x ∧ x < 2 ^ 63
  | .uint64_t, x => 0 ≤ x ∧ x < 2 ^ 64

instance (T : IntOut) (x : Int) : Decidable (T.inRange x) := by
  cases T <;> unfold IntOut.inRange <;> infer_instance

/-- The specializations `Str2T<int32_t>::get`, `Str2T<uint32_t>::get`,
`Str2T<int64_t>::get` and `Str2T<uint64_t>::get`.  None of them uses `end`; the
`uint32_t` one converts the `int` returned by `strtoint<int>` to `uint32_t`. -/
def Str2TInt (T : IntOut) (begin _endp : List Char) : Option Int :=
  match T with
  | .int32_t => (strtoint .int begin 10).map Prod.fst
  | .uint32_t => (strtoint .int begin 10).map (fun r => r.1 % 2 ^ 32)
  | .int64_t => (strtoint .int64_t begin 10).map Prod.fst
  | .uint64_t => (strtoint .uint64_t begin 10).map Prod.fst

/-- `Str2Type<T>(begin, end)`, that is `Str2T<T>::get(begin, end)`. -/
def Str2Type : (T : NumType) → (begin endp : List Char) → Option T.Val
  | .int t, begin, endp => Str2TInt t begin endp
  | .float, begin, _ => atof begin

/-- The loops `while (p != end && f(*p)) ++p;` of `ParsePair`, for a character
class `f`. -/
def scanRange (f : Char → Bool) (endp : List Char) : List Char → Option (List Char)
  | [] => if endp.length = 0 then some [] else none
  | c :: p =>
    if (c :: p).length = endp.length then some (c :: p)
    else if f c then scanRange f endp p
    else some (c :: p)

/-- What `ParsePair` leaves behind: the returned count, `*endptr`, `v1`, `v2`. -/
structure PairResult (T1 T2 : NumType) where
  count : Int
  endptr : List Char
  v1 : T1.Val
  v2 : T2.Val
deriving DecidableEq

/-- `ParsePair<T1, T2>(begin, end, &endptr, v1, v2)`; the arguments `v1`, `v2`
are the contents of the two output variables before the call. -/
def ParsePair (T1 T2 : NumType) (begin endp : List Char) (v1 : T1.Val) (v2 : T2.Val) :
    Option (PairResult T1 T2) := do
  let p ← scanRange (fun c => !isdigits c) endp begin
  if p.length = endp.length then
    pure ⟨0, endp, v1, v2⟩
  else do
    let q ← scanRange isdigits endp p
    let v1 ← Str2Type T1 p q
    let p ← scanRange isblank endp q
    if p.length = endp.length then
      pure ⟨1, p, v1, v2⟩
    else
      match p with
      | [] => none
      | c :: p1 =>
        if c ≠ ':' then
          pure ⟨1, c :: p1, v1, v2⟩
        else do
          let p ← scanRange (fun c => !isdigits c) endp p1
          let q ← scanRange isdigits endp p
          let v2 ← Str2Type T2 p q
          pure ⟨2, q, v1, v2⟩

/-! ## Specification-side notions -/

/-- The integer denoted by the digit string `d_1 ... d_k` in base `b`:
`d_1 * b^(k-1) + ... + d_k`. -/
def positional (b : Int) : List Char → Int
  | [] => 0
  | d :: ds => digitVal d * b ^ ds.length + positional b ds

/-- The integer denoted by an optional sign followed by decimal digits. -/
def signedDecimal (sg ds : List Char) : Int :=
  if sg = ['-'] then -positional 10 ds else positional 10 ds

/-- An optional sign: empty, `+` or `-`. -/
def IsSign (sg : List Char) : Prop := sg = [] ∨ sg = ['+'] ∨ sg = ['-']

instance (sg : List Char) : Decidable (IsSign sg) := by
  unfold IsSign; infer_instance

/-! ## Closed forms of the loops and blocks, used in the proofs -/

/-- The value accumulated by the digit loop of `strtoint<V>` over the digits
`ds`, started from `value`. -/
def horner (V : IntType) (base : Int) : List Char → Int → Int
  | [], value => value
  | d :: ds, value => horner V base ds (V.wrap (value * base + digitVal d))

/-- The pointer after the optional sign: `p + 1` when `*p` is `-` or `+`. -/
def stripSign : List Char → List Char
  | [] => []
  | c :: p => if c = '-' ∨ c = '+' then p else c :: p

/-- The value accumulated by the integer-part loop of `strtof` over the digits
`ds`, started from `value`. -/
def hornerQ : List Char → Rat → Rat
  | [], value => value
  | d :: ds, value => hornerQ ds (value * 10 + (digitVal d : Rat))

/-- The pair `(val2, pow10)` accumulated by the fraction loop of `strtof` over
the digits `ds`. -/
def fracAcc : List Char → Int → Int → Int × Int
  | [], val2, pow10 => (val2, pow10)
  | d :: ds, val2, pow10 => fracAcc ds (wrapU32 (val2 * 10 + digitVal d)) (wrapU32 (pow10 * 10))

/-- The value of `expon` accumulated by the exponent loop of `strtof` over the
digits `ds`. -/
def exponAcc : List Char → Int → Int
  | [], expon => expon
  | d :: ds, expon => exponAcc ds (wrapU32 (expon * 10 + digitVal d))

/-! ## The end offset of the integer token, as the specification words it -/

/-- Number of leading whitespace characters. -/
def leadingSpaces (s : List Char) : Nat := (s.takeWhile isspace).length

/-- The number of sign characters at position `i`: 1 if `s[i]` is `+` or `-`,
else 0. -/
def signLenAt (s : List Char) (i : Nat) : Nat :=
  if s[i]? = some '+' ∨ s[i]? = some '-' then 1 else 0

/-- Length of the maximal run of decimal digits that starts at position `i`. -/
def digitRunAt (s : List Char) (i : Nat) : Nat := ((s.drop i).takeWhile isdigit).length

/-- The end offset of the integer token: leading whitespace, an optional sign,
the maximal run of digits. -/
def intTokenEnd (s : List Char) : Nat :=
  leadingSpaces s + signLenAt s (leadingSpaces s)
    + digitRunAt s (leadingSpaces s + signLenAt s (leadingSpaces s))

/-! ## Closed forms of the blocks of `strtof`, used in the proofs -/

/-- The pointer after the block `if (*p == '.') { ... }` of `strtof`. -/
def fracTail : List Char → List Char
  | [] => []
  | c :: p => if c = '.' then p.dropWhile isdigit else c :: p

/-- The value after the block `if (*p == '.') { ... }` of `strtof`. -/
def fracValue (value : Rat) : List Char → Rat
  | [] => value
  | c :: p =>
    if c = '.' then
      value + ((fracAcc (p.takeWhile isdigit) 0 1).1 : Rat)
        / ((fracAcc (p.takeWhile isdigit) 0 1).2 : Rat)
    else value

/-- The pointer after the block `if ((*p == 'e') || (*p == 'E')) { ... }` of
`strtof`. -/
def exponTail : List Char → List Char
  | [] => []
  | c :: p => if c = 'e' ∨ c = 'E' then (stripSign p).dropWhile isdigit else c :: p

/-- The value after the block `if ((*p == 'e') || (*p == 'E')) { ... }` of
`strtof`. -/
def exponValue (value : Rat) : List Char → Rat
  | [] => value
  | c :: p =>
    if c = 'e' ∨ c = 'E' then
      if p.head? = some '-'
      then value / exponScale (exponAcc ((stripSign p).takeWhile isdigit) 0)
      else value * exponScale (exponAcc ((stripSign p).takeWhile isdigit) 0)
    else value

/-- The unsigned value computed by `strtof` from the pointer that follows the
optional sign. -/
def floatBodyValue (p : List Char) : Rat :=
  exponValue (fracValue (hornerQ (p.takeWhile isdigit) 0) (p.dropWhile isdigit))
    (fracTail (p.dropWhile isdigit))

/-- The end pointer reached by `strtof` from the pointer that follows the
optional sign. -/
def floatBodyEnd (p : List Char) : List Char :=
  exponTail (fracTail (p.dropWhile isdigit))

/-! ## The form of a numeric token, as the specification words it -/

/-- States of the recogniser of the numeric-token form: in the leading
whitespace, after the sign, in the integer digits, in the fraction (after the
`.`), after the exponent marker, after the exponent sign, in the exponent
digits. -/
inductive TokState where
  | start
  | signed
  | int
  | frac
  | expMark
  | expSign
  | expDigits
deriving DecidableEq, Repr

/-- One step of the recogniser of the form
`(whitespace) (sign)? digits ('.' digits)? (('e'|'E') (sign)? digits)?`,
where `digits` stands for zero or more decimal digits; `none` when the
character cannot continue the form. -/
def tokStep : TokState → Char → Option TokState
  | .start, c =>
    if isspace c then some .start
    else if c = '-' ∨ c = '+' then some .signed
    else if isdigit c then some .int
    else if c = '.' then some .frac
    else if c = 'e' ∨ c = 'E' then some .expMark
    else none
  | .signed, c =>
    if isdigit c then some .int
    else if c = '.' then some .frac
    else if c = 'e' ∨ c = 'E' then some .expMark
    else none
  | .int, c =>
    if isdigit c then some .int
    else if c = '.' then some .frac
    else if c = 'e' ∨ c = 'E' then some .expMark
    else none
  | .frac, c =>
    if isdigit c then some .frac
    else if c = 'e' ∨ c = 'E' then some .expMark
    else none
  | .expMark, c =>
    if c = '-' ∨ c = '+' then some .expSign
    else if isdigit c then some .expDigits
    else none
  | .expSign, c => if isdigit c then some .expDigits else none
  | .expDigits, c => if isdigit c then some .expDigits else none

/-- The state of the recogniser after a whole string, `none` when the string
leaves the form. -/
def tokRun : TokState → List Char → Option TokState
  | q, [] => some q
  | q, c :: t =>
    match tokStep q c with
    | some q1 => tokRun q1 t
    | none => none

/-- Whether a string is of the form
`(whitespace) (sign)? digits ('.' digits)? (('e'|'E') (sign)? digits)?`.  With
`expDigitsRequired` the exponent part needs at least one digit (`digits+`). -/
def isTokenForm (expDigitsRequired : Bool) (t : List Char) : Bool :=
  match tokRun .start t with
  | some q => !(expDigitsRequired && (q == .expMark || q == .expSign))
  | none => false

/-- The prefix of length `n` is the longest prefix of `s` of the token form. -/
def IsLongestTokenPrefix (expDigitsRequired : Bool) (s : List Char) (n : Nat) : Prop :=
  n ≤ s.length ∧ isTokenForm expDigitsRequired (s.take n) = true
    ∧ ∀ m, m ≤ s.length → isTokenForm expDigitsRequired (s.take m) = true → m ≤ n

/-- What is left of a string when the recogniser cannot step any more. -/
def tokScan : TokState → List Char → List Char
  | _, [] => []
  | q, c :: t =>
    match tokStep q c with
    | some q1 => tokScan q1 t
    | none => c :: t

/-! ## Machine arithmetic -/

theorem IntType.modulus_pos (V : IntType) : 0 < V.modulus := by
  cases V <;> simp [IntType.modulus]

theorem IntType.wrap_modEq (V : IntType) (x : Int) : V.wrap x ≡ x [ZMOD V.modulus] := by
  unfold IntType.wrap
  have h : (x - V.minVal) % V.modulus ≡ x - V.minVal [ZMOD V.modulus] := Int.mod_modEq _ _
  have h2 := h.add_right V.minVal
  simpa using h2

theorem IntType.wrap_congr (V : IntType) {x y : Int} (h : x ≡ y [ZMOD V.modulus]) :
    V.wrap x = V.wrap y := by
  unfold IntType.wrap
  have h2 : (x - V.minVal) % V.modulus = (y - V.minVal) % V.modulus := h.sub_right V.minVal
  rw [h2]

theorem IntType.wrap_of_inRange (V : IntType) {x : Int} (h : V.inRange x) : V.wrap x = x := by
  unfold IntType.wrap
  obtain ⟨h1, h2⟩ := h
  rw [Int.emod_eq_of_lt (by omega) (by omega)]
  omega

theorem IntType.wrap_inRange (V : IntType) (x : Int) : V.inRange (V.wrap x) := by
  unfold IntType.wrap IntType.inRange
  have hm := V.modulus_pos
  have h1 := Int.emod_nonneg (x - V.minVal) (ne_of_gt hm)
  have h2 := Int.emod_lt_of_pos (x - V.minVal) hm
  constructor <;> omega

theorem IntType.wrap_wrap (V : IntType) (x : Int) : V.wrap (V.wrap x) = V.wrap x :=
  V.wrap_of_inRange (V.wrap_inRange x)

/-! ## The scanning loops on inputs of a known shape -/

theorem skipSpace_append (ws : List Char) (c : Char) (rest : List Char)
    (hws : ∀ x ∈ ws, isspace x = true) (hc : isspace c = false) :
    skipSpace (ws ++ c :: rest) = some (c :: rest) := by
  induction ws with
  | nil => simp [skipSpace, hc]
  | cons w ws ih =>
    have hw : isspace w = true := hws w (List.mem_cons_self _ _)
    have ih2 := ih (fun x hx => hws x (List.mem_cons_of_mem _ hx))
    simp [skipSpace, hw, ih2]

theorem intDigits_append (V : IntType) (base : Int) (ds : List Char) (c : Char)
    (rest : List Char) (value : Int)
    (hds : ∀ x ∈ ds, isdigit x = true) (hc : isdigit c = false) :
    intDigits V base (ds ++ c :: rest) value = some (horner V base ds value, c :: rest) := by
  induction ds generalizing value with
  | nil => simp [intDigits, horner, hc]
  | cons d ds ih =>
    have hd : isdigit d = true := hds d (List.mem_cons_self _ _)
    have ih2 := ih (V.wrap (value * base + digitVal d))
      (fun x hx => hds x (List.mem_cons_of_mem _ hx))
    simp [intDigits, horner, hd, ih2]

theorem horner_eq (V : IntType) (base : Int) (ds : List Char) (value : Int)
    (hv : V.wrap value = value) :
    horner V base ds value = V.wrap (value * base ^ ds.length + positional base ds) := by
  induction ds generalizing value with
  | nil => simp [horner, positional, hv]
  | cons d ds ih =>
    simp only [horner, positional, List.length_cons]
    rw [ih _ (V.wrap_wrap _)]
    apply V.wrap_congr
    have h := V.wrap_modEq (value * base + digitVal d)
    have h2 := (h.mul_right (base ^ ds.length)).add_right (positional base ds)
    refine h2.trans ?_
    have : (value * base + digitVal d) * base ^ ds.length + positional base ds
        = value * base ^ (ds.length + 1) + (digitVal d * base ^ ds.length + positional base ds) := by
      ring
    rw [this]

theorem wrap_zero (V : IntType) : V.wrap 0 = 0 := by
  cases V <;> simp [IntType.wrap, IntType.minVal, IntType.modulus]

/-! ## Character classes -/

theorem isdigit_iff (c : Char) : isdigit c = true ↔ 48 ≤ c.toNat ∧ c.toNat ≤ 57 := by
  simp only [isdigit, Bool.and_eq_true, decide_eq_true_eq]
  rw [Char.le_def, Char.le_def]
  rfl

theorem isspace_toNat {c : Char} (h : isspace c = true) :
    c.toNat = 32 ∨ c.toNat = 9 ∨ c.toNat = 13 ∨ c.toNat = 10 ∨ c.toNat = 12 := by
  simp only [isspace, Bool.or_eq_true, beq_iff_eq] at h
  rcases h with (((h | h) | h) | h) | h <;> subst h <;> decide

theorem isspace_false_of_isdigit {c : Char} (h : isdigit c = true) : isspace c = false := by
  rw [isdigit_iff] at h
  cases hs : isspace c with
  | false => rfl
  | true => have := isspace_toNat hs; omega

theorem ne_minus_of_isdigit {c : Char} (h : isdigit c = true) : c ≠ '-' := by
  rintro rfl; revert h; decide

theorem ne_plus_of_isdigit {c : Char} (h : isdigit c = true) : c ≠ '+' := by
  rintro rfl; revert h; decide

theorem digitVal_nonneg {c : Char} (h : isdigit c = true) : 0 ≤ digitVal c := by
  rw [isdigit_iff] at h; unfold digitVal; omega

theorem digitVal_le {c : Char} (h : isdigit c = true) : digitVal c ≤ 9 := by
  rw [isdigit_iff] at h; unfold digitVal; omega

/-! ## `strtoint` on inputs of a known shape -/

theorem getSign_minus (p : List Char) : getSign ('-' :: p) = some (false, p) := by
  simp [getSign]

theorem getSign_plus (p : List Char) : getSign ('+' :: p) = some (true, p) := by
  simp [getSign]

theorem getSign_other (c : Char) (p : List Char) (h1 : c ≠ '-') (h2 : c ≠ '+') :
    getSign (c :: p) = some (true, c :: p) := by
  simp [getSign, h1, h2]

/-- The result of `strtoint` on `ws ++ sg ++ ds ++ c :: rest`, where `ws` are
spaces, `sg` is a sign, `ds` is a non-empty run of digits and `c` is not a
digit. -/
theorem strtoint_shape (V : IntType) (base : Int) (ws sg ds : List Char) (c : Char)
    (rest : List Char) (hws : ∀ x ∈ ws, isspace x = true) (hsg : IsSign sg)
    (hne : ds ≠ []) (hds : ∀ x ∈ ds, isdigit x = true) (hc : isdigit c = false) :
    strtoint V (ws ++ sg ++ ds ++ c :: rest) base =
      some (if sg = ['-'] then V.wrap (-horner V base ds 0) else horner V base ds 0,
        c :: rest) := by
  obtain ⟨d, ds1, rfl⟩ := List.exists_cons_of_ne_nil hne
  have hd : isdigit d = true := hds d (List.mem_cons_self _ _)
  have hrun := intDigits_append V base (d :: ds1) c rest 0 hds hc
  rcases hsg with rfl | rfl | rfl
  · have h1 := skipSpace_append ws d (ds1 ++ c :: rest) hws (isspace_false_of_isdigit hd)
    have h2 := getSign_other d (ds1 ++ c :: rest) (ne_minus_of_isdigit hd) (ne_plus_of_isdigit hd)
    simp only [List.cons_append, List.append_nil, List.append_assoc] at hrun h1 h2 ⊢
    simp [strtoint, h1, h2, hrun]
  · have h1 := skipSpace_append ws '+' (d :: ds1 ++ c :: rest) hws (by decide)
    have h2 := getSign_plus (d :: ds1 ++ c :: rest)
    simp only [List.cons_append, List.append_nil, List.append_assoc, List.singleton_append]
      at hrun h1 h2 ⊢
    simp [strtoint, h1, h2, hrun]
  · have h1 := skipSpace_append ws '-' (d :: ds1 ++ c :: rest) hws (by decide)
    have h2 := getSign_minus (d :: ds1 ++ c :: rest)
    simp only [List.cons_append, List.append_nil, List.append_assoc, List.singleton_append]
      at hrun h1 h2 ⊢
    simp [strtoint, h1, h2, hrun]

/-- The result of `strtoint` in base 10 on whitespace, a sign and a non-empty
run of digits followed by a non-digit: the denoted integer reduced to the
target type. -/
theorem strtoint_value (V : IntType) (ws sg ds : List Char) (c : Char)
    (rest : List Char) (hws : ∀ x ∈ ws, isspace x = true) (hsg : IsSign sg)
    (hne : ds ≠ []) (hds : ∀ x ∈ ds, isdigit x = true) (hc : isdigit c = false) :
    strtoint V (ws ++ sg ++ ds ++ c :: rest) 10
      = some (V.wrap (signedDecimal sg ds), c :: rest) := by
  rw [strtoint_shape V 10 ws sg ds c rest hws hsg hne hds hc]
  rw [horner_eq V 10 ds 0 (wrap_zero V)]
  simp only [zero_mul, zero_add]
  unfold signedDecimal
  split
  · rw [V.wrap_congr (V.wrap_modEq (positional 10 ds)).neg]
  · rfl

/-- C1: for each of the target types `int`, `int64_t` and `uint64_t`, on an
input made of optional whitespace, an optional sign and one or more decimal
digits followed by a non-digit, whose denoted integer is representable in the
target type, `strtoint` in base 10 returns exactly that integer (and reports
the end pointer at the non-digit). -/
theorem strtoint_decimal_exact (V : IntType) (ws sg ds : List Char) (c : Char)
    (rest : List Char) (hws : ∀ x ∈ ws, isspace x = true) (hsg : IsSign sg)
    (hne : ds ≠ []) (hds : ∀ x ∈ ds, isdigit x = true) (hc : isdigit c = false)
    (hn : V.inRange (signedDecimal sg ds)) :
    strtoint V (ws ++ sg ++ ds ++ c :: rest) 10 = some (signedDecimal sg ds, c :: rest) := by
  rw [strtoint_value V ws sg ds c rest hws hsg hne hds hc, V.wrap_of_inRange hn]

set_option maxRecDepth 100000 in
theorem strtoint_decimal_exact_witness :
    strtoint .int (" \t-2147483648;7".toList ++ [NUL]) 10
      = some (-2147483648, ";7".toList ++ [NUL]) :=
  strtoint_decimal_exact .int [' ', '\t'] ['-'] "2147483648".toList ';' ['7', NUL]
    (by decide) (by decide) (by decide) (by decide) (by decide) (by decide)


/-! ## `ParsePair` on a range `[begin, end)` -/

theorem length_append_ne (xs endp : List Char) (h : xs ≠ []) :
    (xs ++ endp).length ≠ endp.length := by
  cases xs with
  | nil => exact absurd rfl h
  | cons x xs => simp only [List.cons_append, List.length_cons, List.length_append]; omega

theorem scanRange_self (f : Char → Bool) (endp : List Char) :
    scanRange f endp endp = some endp := by
  cases endp <;> simp [scanRange]

/-- Each scanning loop of `ParsePair`, started inside the range, stops at the
first character of the range that is not in the class, or at `end`. -/
theorem scanRange_dropWhile (f : Char → Bool) (endp xs : List Char) :
    scanRange f endp (xs ++ endp) = some (xs.dropWhile f ++ endp) := by
  induction xs with
  | nil => simpa using scanRange_self f endp
  | cons x xs ih =>
    have hne : (x :: (xs ++ endp)).length ≠ endp.length := by
      simp only [List.length_cons, List.length_append]; omega
    rw [List.cons_append, scanRange, if_neg hne, List.dropWhile_cons]
    cases hfx : f x with
    | true => simpa using ih
    | false => simp

theorem dropWhile_append_stop (f : Char → Bool) (xs ys : List Char)
    (hxs : ∀ x ∈ xs, f x = true) (hys : ∀ c ∈ ys.head?, f c = false) :
    (xs ++ ys).dropWhile f = ys := by
  induction xs with
  | nil =>
    cases ys with
    | nil => rfl
    | cons c r =>
      have : f c = false := hys c (by simp)
      simp [List.dropWhile_cons, this]
  | cons x xs ih =>
    have hx : f x = true := hxs x (List.mem_cons_self _ _)
    simp only [List.cons_append, List.dropWhile_cons, hx, if_true]
    exact ih (fun y hy => hxs y (List.mem_cons_of_mem _ hy))

/-- The run of `ParsePair` on the range `range` followed by the characters
stored from `end` on, in terms of the range alone. -/
theorem ParsePair_range (T1 T2 : NumType) (range endp : List Char) (v1 : T1.Val)
    (v2 : T2.Val) :
    ParsePair T1 T2 (range ++ endp) endp v1 v2 =
      if range.dropWhile (fun c => !isdigits c) = [] then some ⟨0, endp, v1, v2⟩
      else
        (Str2Type T1 (range.dropWhile (fun c => !isdigits c) ++ endp)
          ((range.dropWhile (fun c => !isdigits c)).dropWhile isdigits ++ endp)).bind
        fun w1 =>
          match ((range.dropWhile (fun c => !isdigits c)).dropWhile isdigits).dropWhile
              isblank with
          | [] => some ⟨1, endp, w1, v2⟩
          | c :: p1 =>
            if c ≠ ':' then some ⟨1, c :: p1 ++ endp, w1, v2⟩
            else
              (Str2Type T2 (p1.dropWhile (fun c => !isdigits c) ++ endp)
                ((p1.dropWhile (fun c => !isdigits c)).dropWhile isdigits ++ endp)).bind
              fun w2 =>
                some ⟨2, (p1.dropWhile (fun c => !isdigits c)).dropWhile isdigits ++ endp,
                  w1, w2⟩ := by
  unfold ParsePair
  rw [scanRange_dropWhile]
  simp only [Option.bind_eq_bind, Option.some_bind, Option.pure_def]
  by_cases h0 : range.dropWhile (fun c => !isdigits c) = []
  · simp [h0]
  · rw [if_neg (length_append_ne _ _ h0), if_neg h0, scanRange_dropWhile]
    simp only [Option.some_bind]
    congr 1
    funext w1
    rw [scanRange_dropWhile]
    simp only [Option.some_bind]
    cases hq : ((range.dropWhile (fun c => !isdigits c)).dropWhile isdigits).dropWhile
        isblank with
    | nil => simp
    | cons c p1 =>
      rw [if_neg (length_append_ne _ _ (List.cons_ne_nil _ _))]
      simp only [List.cons_append]
      by_cases hc : c = ':'
      · simp only [hc, ne_eq, not_true_eq_false, if_false]
        rw [scanRange_dropWhile]
        simp only [Option.some_bind]
        rw [scanRange_dropWhile]
        simp only [Option.some_bind]
      · simp [hc]

/-! ## Tokens inside a range -/

theorem isdigits_of_isdigit {c : Char} (h : isdigit c = true) : isdigits c = true := by
  unfold isdigit at h; unfold isdigits; simp [h]

theorem isdigit_false_of_isdigits {c : Char} (h : isdigits c = false) : isdigit c = false := by
  cases hd : isdigit c with
  | false => rfl
  | true => rw [isdigits_of_isdigit hd] at h; cases h

theorem isdigits_false_of_isblank {c : Char} (h : isblank c = true) : isdigits c = false := by
  simp only [isblank, Bool.or_eq_true, beq_iff_eq] at h
  rcases h with h | h <;> subst h <;> decide

theorem token_all_isdigits (sg ds : List Char) (hsg : IsSign sg)
    (hds : ∀ x ∈ ds, isdigit x = true) : ∀ x ∈ sg ++ ds, isdigits x = true := by
  intro x hx
  rcases List.mem_append.1 hx with h | h
  · rcases hsg with rfl | rfl | rfl
    · cases h
    · rw [List.mem_singleton.1 h]; decide
    · rw [List.mem_singleton.1 h]; decide
  · exact isdigits_of_isdigit (hds x h)

theorem token_ne_nil (sg ds : List Char) (hne : ds ≠ []) : sg ++ ds ≠ [] := by
  cases sg with
  | nil => simpa using hne
  | cons x xs => simp

theorem token_head_isdigits (sg ds ys : List Char) (hsg : IsSign sg) (hne : ds ≠ [])
    (hds : ∀ x ∈ ds, isdigit x = true) : ∀ c ∈ (sg ++ ds ++ ys).head?, isdigits c = true := by
  intro c hc
  obtain ⟨t, ts, ht⟩ := List.exists_cons_of_ne_nil (token_ne_nil sg ds hne)
  rw [ht] at hc
  simp only [List.cons_append, List.head?_cons, Option.mem_def, Option.some.injEq] at hc
  subst hc
  exact token_all_isdigits sg ds hsg hds _ (by rw [ht]; exact List.mem_cons_self _ _)

/-- The value that the integer specializations of `Str2T` return for a token
(a sign and a non-empty run of digits) representable in the output type and
followed by a non-digit. -/
theorem Str2TInt_token (T : IntOut) (sg ds : List Char) (c : Char) (rest q : List Char)
    (hsg : IsSign sg) (hne : ds ≠ []) (hds : ∀ x ∈ ds, isdigit x = true)
    (hc : isdigit c = false) (hn : T.inRange (signedDecimal sg ds)) :
    Str2TInt T (sg ++ ds ++ c :: rest) q = some (signedDecimal sg ds) := by
  have key : ∀ V : IntType, strtoint V (sg ++ ds ++ c :: rest) 10
      = some (V.wrap (signedDecimal sg ds), c :: rest) := fun V => by
    simpa using strtoint_value V [] sg ds c rest (by simp) hsg hne hds hc
  cases T with
  | int32_t =>
    have hr : IntType.int.inRange (signedDecimal sg ds) := by
      simpa [IntType.inRange, IntOut.inRange, IntType.minVal, IntType.modulus] using hn
    simp only [Str2TInt]
    rw [key, IntType.wrap_of_inRange _ hr]
    rfl
  | uint32_t =>
    have h1 : IntType.int.wrap (signedDecimal sg ds) % 2 ^ 32 = signedDecimal sg ds % 2 ^ 32 :=
      IntType.wrap_modEq IntType.int (signedDecimal sg ds)
    have h2 : signedDecimal sg ds % 2 ^ 32 = signedDecimal sg ds :=
      Int.emod_eq_of_lt hn.1 hn.2
    simp only [Str2TInt]
    rw [key]
    simp only [Option.map_some', h1, h2]
  | int64_t =>
    have hr : IntType.int64_t.inRange (signedDecimal sg ds) := by
      simpa [IntType.inRange, IntOut.inRange, IntType.minVal, IntType.modulus] using hn
    simp only [Str2TInt]
    rw [key, IntType.wrap_of_inRange _ hr]
    rfl
  | uint64_t =>
    have hr : IntType.uint64_t.inRange (signedDecimal sg ds) := by
      simpa [IntType.inRange, IntOut.inRange, IntType.minVal, IntType.modulus] using hn
    simp only [Str2TInt]
    rw [key, IntType.wrap_of_inRange _ hr]
    rfl

theorem not_isdigits_apply {c : Char} (h : isdigits c = false) :
    (fun c => !isdigits c) c = true := by
  simp [h]

theorem not_isdigits_apply_false {c : Char} (h : isdigits c = true) :
    (fun c => !isdigits c) c = false := by
  simp [h]

theorem blanks_colon_head (blanks Z : List Char) (hbl : ∀ x ∈ blanks, isblank x = true) :
    ∀ c ∈ (blanks ++ ':' :: Z).head?, isdigits c = false := by
  intro c hc
  cases blanks with
  | nil =>
    simp only [List.nil_append, List.head?_cons, Option.mem_def, Option.some.injEq] at hc
    subst hc; decide
  | cons b bs =>
    simp only [List.cons_append, List.head?_cons, Option.mem_def, Option.some.injEq] at hc
    subst hc
    exact isdigits_false_of_isblank (hbl _ (List.mem_cons_self _ _))

theorem NUL_not_isdigit : isdigit NUL = false := by decide

theorem NUL_not_isdigits : isdigits NUL = false := by decide

/-- C2: on a range `pre ++ a ++ blanks ++ ":" ++ sep ++ b` that ends at the NUL
terminator of the buffer, where `pre` and `sep` contain no digit-like character,
`blanks` are spaces or tabs, and `a`, `b` are decimal integers (an optional sign
and one or more digits) representable in the integer output types `T1`, `T2`,
`ParsePair` returns 2, writes the value of `a` to `v1` and the value of `b` to
`v2`, and sets the end pointer to `end`, the position just past `b`. -/
theorem ParsePair_two_values (T1 T2 : IntOut)
    (pre sgA dsA blanks sep sgB dsB after : List Char) (v1 v2 : Int)
    (hpre : ∀ x ∈ pre, isdigits x = false)
    (hsgA : IsSign sgA) (hneA : dsA ≠ []) (hdsA : ∀ x ∈ dsA, isdigit x = true)
    (hbl : ∀ x ∈ blanks, isblank x = true)
    (hsep : ∀ x ∈ sep, isdigits x = false)
    (hsgB : IsSign sgB) (hneB : dsB ≠ []) (hdsB : ∀ x ∈ dsB, isdigit x = true)
    (hA : T1.inRange (signedDecimal sgA dsA)) (hB : T2.inRange (signedDecimal sgB dsB)) :
    ParsePair (.int T1) (.int T2)
        (pre ++ (sgA ++ dsA) ++ blanks ++ ':' :: sep ++ (sgB ++ dsB) ++ NUL :: after)
        (NUL :: after) v1 v2
      = some ⟨2, NUL :: after, signedDecimal sgA dsA, signedDecimal sgB dsB⟩ := by
  rw [ParsePair_range]
  have hD1 : (pre ++ (sgA ++ dsA) ++ blanks ++ ':' :: sep ++ (sgB ++ dsB)).dropWhile
      (fun c => !isdigits c) = sgA ++ dsA ++ (blanks ++ ':' :: (sep ++ (sgB ++ dsB))) := by
    have e : pre ++ (sgA ++ dsA) ++ blanks ++ ':' :: sep ++ (sgB ++ dsB)
        = pre ++ (sgA ++ dsA ++ (blanks ++ ':' :: (sep ++ (sgB ++ dsB)))) := by simp
    rw [e]
    exact dropWhile_append_stop _ _ _ (fun x hx => not_isdigits_apply (hpre x hx))
      (fun c hc => not_isdigits_apply_false (token_head_isdigits sgA dsA _ hsgA hneA hdsA c hc))
  have hD2 : (sgA ++ dsA ++ (blanks ++ ':' :: (sep ++ (sgB ++ dsB)))).dropWhile isdigits
      = blanks ++ ':' :: (sep ++ (sgB ++ dsB)) :=
    dropWhile_append_stop _ _ _ (token_all_isdigits sgA dsA hsgA hdsA)
      (blanks_colon_head blanks _ hbl)
  have hD3 : (blanks ++ ':' :: (sep ++ (sgB ++ dsB))).dropWhile isblank
      = ':' :: (sep ++ (sgB ++ dsB)) :=
    dropWhile_append_stop _ _ _ hbl (fun c hc => by
      simp only [List.head?_cons, Option.mem_def, Option.some.injEq] at hc
      subst hc; decide)
  have hD4 : (sep ++ (sgB ++ dsB)).dropWhile (fun c => !isdigits c) = sgB ++ dsB :=
    dropWhile_append_stop _ _ _ (fun x hx => not_isdigits_apply (hsep x hx))
      (fun c hc => not_isdigits_apply_false
        (token_head_isdigits sgB dsB [] hsgB hneB hdsB c (by simpa using hc)))
  have hD5 : (sgB ++ dsB).dropWhile isdigits = [] :=
    List.dropWhile_eq_nil_iff.2 (token_all_isdigits sgB dsB hsgB hdsB)
  have hS1 : ∀ q, Str2Type (.int T1)
      (sgA ++ dsA ++ (blanks ++ ':' :: (sep ++ (sgB ++ dsB))) ++ NUL :: after) q
      = some (signedDecimal sgA dsA) := by
    intro q
    obtain ⟨c, rest, hcr, hc⟩ : ∃ c rest, (blanks ++ ':' :: (sep ++ (sgB ++ dsB)))
        ++ NUL :: after = c :: rest ∧ isdigit c = false := by
      cases blanks with
      | nil => exact ⟨':', _, rfl, by decide⟩
      | cons b bs =>
        exact ⟨b, _, rfl, isdigit_false_of_isdigits
          (isdigits_false_of_isblank (hbl _ (List.mem_cons_self _ _)))⟩
    rw [List.append_assoc (sgA ++ dsA), hcr]
    exact Str2TInt_token T1 sgA dsA c rest q hsgA hneA hdsA hc hA
  have hS2 : ∀ q, Str2Type (.int T2) (sgB ++ dsB ++ NUL :: after) q
      = some (signedDecimal sgB dsB) := fun q =>
    Str2TInt_token T2 sgB dsB NUL after q hsgB hneB hdsB NUL_not_isdigit hB
  rw [hD1, if_neg (by simp [hneA]), hD2, hS1, hD3]
  simp only [Option.some_bind, ne_eq, not_true_eq_false, if_false]
  rw [hD4, hD5, hS2]
  rfl

set_option maxRecDepth 100000 in
theorem ParsePair_two_values_witness :
    ParsePair (.int .int32_t) (.int .int32_t) ("3:5".toList ++ [NUL]) [NUL] 0 0
        = some ⟨2, [NUL], 3, 5⟩
      ∧ ParsePair (.int .int32_t) (.int .uint64_t) ("12 : 34".toList ++ [NUL]) [NUL] 0 0
        = some ⟨2, [NUL], 12, 34⟩ :=
  ⟨ParsePair_two_values .int32_t .int32_t [] [] ['3'] [] [] [] ['5'] [] 0 0
      (by decide) (by decide) (by decide) (by decide) (by decide) (by decide)
      (by decide) (by decide) (by decide) (by decide) (by decide),
    ParsePair_two_values .int32_t .uint64_t [] [] ['1', '2'] [' '] [' '] [] ['3', '4'] [] 0 0
      (by decide) (by decide) (by decide) (by decide) (by decide) (by decide)
      (by decide) (by decide) (by decide) (by decide) (by decide)⟩

theorem dropWhile_not_isdigits_eq_nil (range : List Char) :
    range.dropWhile (fun c => !isdigits c) = [] ↔ ∀ x ∈ range, isdigits x = false := by
  rw [List.dropWhile_eq_nil_iff]
  simp

/-! ## The scanning loops on NUL-terminated inputs -/

theorem mem_dropWhile_of_mem {f : Char → Bool} {s : List Char} {x : Char} (hx : x ∈ s)
    (hf : f x = false) : x ∈ s.dropWhile f := by
  induction s with
  | nil => cases hx
  | cons y ys ih =>
    rw [List.dropWhile_cons]
    split
    · rename_i hy
      rcases List.mem_cons.1 hx with h | h
      · rw [h, hy] at hf; cases hf
      · exact ih h
    · exact hx

theorem dropWhile_ne_nil_of_mem {f : Char → Bool} {s : List Char} {x : Char} (hx : x ∈ s)
    (hf : f x = false) : s.dropWhile f ≠ [] :=
  List.ne_nil_of_mem (mem_dropWhile_of_mem hx hf)

theorem dropWhile_head_false (f : Char → Bool) (s : List Char) :
    ∀ c ∈ (s.dropWhile f).head?, f c = false := by
  induction s with
  | nil => intro c hc; cases hc
  | cons y ys ih =>
    intro c hc
    rw [List.dropWhile_cons] at hc
    split at hc
    · exact ih c hc
    · rename_i hy
      simp only [List.head?_cons, Option.mem_def, Option.some.injEq] at hc
      subst hc
      simpa using hy

theorem length_takeWhile_add_dropWhile (f : Char → Bool) (s : List Char) :
    (s.takeWhile f).length + (s.dropWhile f).length = s.length := by
  have h := congrArg List.length (List.takeWhile_append_dropWhile f s)
  rw [List.length_append] at h
  exact h

theorem drop_length_takeWhile (f : Char → Bool) (s : List Char) :
    s.drop (s.takeWhile f).length = s.dropWhile f := by
  have e := List.drop_left (s.takeWhile f) (s.dropWhile f)
  rw [List.takeWhile_append_dropWhile] at e
  exact e

theorem skipSpace_dropWhile (s : List Char) (h : s.dropWhile isspace ≠ []) :
    skipSpace s = some (s.dropWhile isspace) := by
  induction s with
  | nil => exact absurd rfl h
  | cons y ys ih =>
    rw [List.dropWhile_cons] at h ⊢
    rw [skipSpace]
    split
    · rename_i hy; rw [if_pos hy] at h; exact ih h
    · rfl

theorem intDigits_dropWhile (V : IntType) (base : Int) (s : List Char) (value : Int)
    (h : s.dropWhile isdigit ≠ []) :
    intDigits V base s value
      = some (horner V base (s.takeWhile isdigit) value, s.dropWhile isdigit) := by
  induction s generalizing value with
  | nil => exact absurd rfl h
  | cons y ys ih =>
    rw [List.dropWhile_cons] at h ⊢
    rw [intDigits, List.takeWhile_cons]
    split
    · rename_i hy; rw [if_pos hy] at h; rw [ih _ h]; rfl
    · rfl

theorem getSign_eq (p : List Char) (h : p ≠ []) :
    getSign p = some (decide (p.head? ≠ some '-'), stripSign p) := by
  cases p with
  | nil => exact absurd rfl h
  | cons c r =>
    by_cases h1 : c = '-'
    · subst h1; simp [getSign, stripSign]
    · by_cases h2 : c = '+'
      · subst h2; simp [getSign, stripSign]
      · simp [getSign, stripSign, h1, h2]

theorem NUL_mem_stripSign {p : List Char} (h : NUL ∈ p) : NUL ∈ stripSign p := by
  cases p with
  | nil => cases h
  | cons c r =>
    by_cases hc : c = '-' ∨ c = '+'
    · rw [stripSign, if_pos hc]
      rcases List.mem_cons.1 h with h1 | h1
      · rw [← h1] at hc; exact absurd hc (by decide)
      · exact h1
    · rw [stripSign, if_neg hc]
      exact h

theorem NUL_not_isspace : isspace NUL = false := by decide

/-- The run of `strtoint` on a NUL-terminated input, in closed form. -/
theorem strtoint_eq (V : IntType) (base : Int) (s : List Char) (h : NUL ∈ s) :
    strtoint V s base =
      some (if (s.dropWhile isspace).head? = some '-'
          then V.wrap (-horner V base ((stripSign (s.dropWhile isspace)).takeWhile isdigit) 0)
          else horner V base ((stripSign (s.dropWhile isspace)).takeWhile isdigit) 0,
        (stripSign (s.dropWhile isspace)).dropWhile isdigit) := by
  have h1 : NUL ∈ s.dropWhile isspace := mem_dropWhile_of_mem h NUL_not_isspace
  have h2 : NUL ∈ stripSign (s.dropWhile isspace) := NUL_mem_stripSign h1
  have h3 := dropWhile_ne_nil_of_mem h2 NUL_not_isdigit
  unfold strtoint
  rw [skipSpace_dropWhile s (List.ne_nil_of_mem h1)]
  simp only [Option.bind_eq_bind, Option.some_bind]
  rw [getSign_eq _ (List.ne_nil_of_mem h1)]
  simp only [Option.some_bind]
  rw [intDigits_dropWhile V base _ 0 h3]
  simp only [Option.some_bind, Option.pure_def]
  by_cases hm : (s.dropWhile isspace).head? = some '-' <;> simp [hm]

theorem stripSign_eq_drop (s : List Char) (n : Nat) :
    stripSign (s.drop n) = s.drop (n + signLenAt s n) := by
  have hh : (s.drop n).head? = s[n]? := by rw [List.head?_drop]
  unfold signLenAt
  rw [← hh, ← List.drop_drop]
  cases s.drop n with
  | nil => simp [stripSign]
  | cons c r =>
    by_cases h1 : c = '-'
    · subst h1; simp [stripSign]
    · by_cases h2 : c = '+'
      · subst h2; simp [stripSign]
      · simp [stripSign, h1, h2]

theorem strtoint_endptr_eq_drop (s : List Char) :
    (stripSign (s.dropWhile isspace)).dropWhile isdigit = s.drop (intTokenEnd s) := by
  unfold intTokenEnd digitRunAt leadingSpaces
  rw [← drop_length_takeWhile isspace s, stripSign_eq_drop, ← drop_length_takeWhile isdigit,
    List.drop_drop]

/-- C6: on every NUL-terminated input `strtoint` returns, and the reported end
offset is the number of leading whitespace characters, plus 1 if a `+` or `-`
follows, plus the length of the maximal run of digits that follows; the
character at the reported end is not a digit and every character between the
sign and the reported end is a digit. -/
theorem strtoint_end_offset (V : IntType) (base : Int) (s : List Char) (h : NUL ∈ s) :
    ∃ v e, strtoint V s base = some (v, e)
      ∧ e = s.drop (intTokenEnd s)
      ∧ s.length - e.length = intTokenEnd s
      ∧ (∃ c, s[intTokenEnd s]? = some c ∧ isdigit c = false)
      ∧ ∀ i, leadingSpaces s + signLenAt s (leadingSpaces s) ≤ i → i < intTokenEnd s →
          ∃ c, s[i]? = some c ∧ isdigit c = true := by
  have h1 : NUL ∈ s.dropWhile isspace := mem_dropWhile_of_mem h NUL_not_isspace
  have h2 : NUL ∈ stripSign (s.dropWhile isspace) := NUL_mem_stripSign h1
  have h3 := dropWhile_ne_nil_of_mem h2 NUL_not_isdigit
  have hstop := dropWhile_head_false isdigit (stripSign (s.dropWhile isspace))
  rw [strtoint_endptr_eq_drop] at h3 hstop
  refine ⟨_, _, strtoint_eq V base s h, strtoint_endptr_eq_drop s, ?_, ?_, ?_⟩
  · rw [strtoint_endptr_eq_drop, List.length_drop]
    have hl : 0 < (s.drop (intTokenEnd s)).length := List.length_pos.2 h3
    rw [List.length_drop] at hl
    omega
  · rw [List.head?_drop] at hstop
    cases hc : s[intTokenEnd s]? with
    | none =>
      have := List.drop_eq_nil_of_le (List.getElem?_eq_none_iff.1 hc)
      exact absurd this h3
    | some c => exact ⟨c, rfl, hstop c (by rw [hc]; rfl)⟩
  · intro i hlo hhi
    unfold intTokenEnd digitRunAt at hhi
    have hq := List.takeWhile_append_dropWhile isdigit
      (s.drop (leadingSpaces s + signLenAt s (leadingSpaces s)))
    have hi : s[i]? = (s.drop (leadingSpaces s + signLenAt s (leadingSpaces s)))[i
        - (leadingSpaces s + signLenAt s (leadingSpaces s))]? := by
      rw [List.getElem?_drop]
      congr 1
      omega
    have hlt : i - (leadingSpaces s + signLenAt s (leadingSpaces s))
        < ((s.drop (leadingSpaces s + signLenAt s (leadingSpaces s))).takeWhile isdigit).length := by
      omega
    rw [hi, ← hq, List.getElem?_append_left hlt, List.getElem?_eq_getElem hlt]
    exact ⟨_, rfl, (List.mem_takeWhile_imp (List.getElem_mem _)).trans rfl⟩

set_option maxRecDepth 100000 in
theorem strtoint_end_offset_witness :
    ∃ v e, strtoint .int (" \t+12a4".toList ++ [NUL]) 10 = some (v, e)
      ∧ e = "a4".toList ++ [NUL]
      ∧ (" \t+12a4".toList ++ [NUL]).length - e.length = 2 + 1 + 2
      ∧ (∃ c, (" \t+12a4".toList ++ [NUL])[5]? = some c ∧ isdigit c = false)
      ∧ ∀ i, 2 + 1 ≤ i → i < 5 →
          ∃ c, (" \t+12a4".toList ++ [NUL])[i]? = some c ∧ isdigit c = true :=
  strtoint_end_offset .int 10 (" \t+12a4".toList ++ [NUL]) (by decide)

/-! ## `strtof` on NUL-terminated inputs -/

theorem floatDigits_dropWhile (s : List Char) (value : Rat) (h : s.dropWhile isdigit ≠ []) :
    floatDigits s value = some (hornerQ (s.takeWhile isdigit) value, s.dropWhile isdigit) := by
  induction s generalizing value with
  | nil => exact absurd rfl h
  | cons y ys ih =>
    rw [List.dropWhile_cons] at h ⊢
    rw [floatDigits, List.takeWhile_cons]
    split
    · rename_i hy; rw [if_pos hy] at h; rw [ih _ h]; rfl
    · rfl

theorem fracDigits_dropWhile (s : List Char) (val2 pow10 : Int)
    (h : s.dropWhile isdigit ≠ []) :
    fracDigits s val2 pow10
      = some ((fracAcc (s.takeWhile isdigit) val2 pow10).1,
          (fracAcc (s.takeWhile isdigit) val2 pow10).2, s.dropWhile isdigit) := by
  induction s generalizing val2 pow10 with
  | nil => exact absurd rfl h
  | cons y ys ih =>
    rw [List.dropWhile_cons] at h ⊢
    rw [fracDigits, List.takeWhile_cons]
    split
    · rename_i hy; rw [if_pos hy] at h; rw [ih _ _ h]; rfl
    · rfl

theorem exponDigits_dropWhile (s : List Char) (expon : Int) (h : s.dropWhile isdigit ≠ []) :
    exponDigits s expon = some (exponAcc (s.takeWhile isdigit) expon, s.dropWhile isdigit) := by
  induction s generalizing expon with
  | nil => exact absurd rfl h
  | cons y ys ih =>
    rw [List.dropWhile_cons] at h ⊢
    rw [exponDigits, List.takeWhile_cons]
    split
    · rename_i hy; rw [if_pos hy] at h; rw [ih _ h]; rfl
    · rfl

theorem getExpSign_eq (p : List Char) (h : p ≠ []) :
    getExpSign p = some (decide (p.head? = some '-'), stripSign p) := by
  cases p with
  | nil => exact absurd rfl h
  | cons c r =>
    by_cases h1 : c = '-'
    · subst h1; simp [getExpSign, stripSign]
    · by_cases h2 : c = '+'
      · subst h2; simp [getExpSign, stripSign]
      · simp [getExpSign, stripSign, h1, h2]

theorem NUL_mem_of_mem_cons {c : Char} {p : List Char} (h : NUL ∈ c :: p) (hc : c ≠ NUL) :
    NUL ∈ p := by
  rcases List.mem_cons.1 h with h1 | h1
  · exact absurd h1.symm hc
  · exact h1

theorem fracPart_eq (value : Rat) (p : List Char) (h : NUL ∈ p) :
    fracPart value p = some (fracValue value p, fracTail p) ∧ NUL ∈ fracTail p := by
  cases p with
  | nil => cases h
  | cons c r =>
    by_cases hc : c = '.'
    · subst hc
      have hr : NUL ∈ r := NUL_mem_of_mem_cons h (by decide)
      have h1 := mem_dropWhile_of_mem hr NUL_not_isdigit
      refine ⟨?_, by simpa [fracTail] using h1⟩
      simp [fracPart, fracValue, fracTail, fracDigits_dropWhile r 0 1 (List.ne_nil_of_mem h1)]
    · exact ⟨by simp [fracPart, fracValue, fracTail, hc], by simpa [fracTail, hc] using h⟩

theorem exponPart_eq (value : Rat) (p : List Char) (h : NUL ∈ p) :
    exponPart value p = some (exponValue value p, exponTail p) ∧ NUL ∈ exponTail p := by
  cases p with
  | nil => cases h
  | cons c r =>
    by_cases hc : c = 'e' ∨ c = 'E'
    · have hr : NUL ∈ r := NUL_mem_of_mem_cons h (by rcases hc with rfl | rfl <;> decide)
      have h1 := mem_dropWhile_of_mem (NUL_mem_stripSign hr) NUL_not_isdigit
      refine ⟨?_, by simpa [exponTail, hc] using h1⟩
      rw [exponPart, if_pos hc, getExpSign_eq r (List.ne_nil_of_mem hr)]
      simp only [Option.bind_eq_bind, Option.some_bind]
      rw [exponDigits_dropWhile _ 0 (List.ne_nil_of_mem h1)]
      simp only [Option.some_bind, Option.pure_def, exponValue, exponTail, if_pos hc]
      by_cases hm : r.head? = some '-' <;> simp [hm]
    · exact ⟨by simp [exponPart, exponValue, exponTail, hc], by simpa [exponTail, hc] using h⟩

/-- The run of `strtof` on a NUL-terminated input, in closed form. -/
theorem strtof_eq (s : List Char) (h : NUL ∈ s) :
    strtof s =
      some (if (s.dropWhile isspace).head? = some '-'
          then -floatBodyValue (stripSign (s.dropWhile isspace))
          else floatBodyValue (stripSign (s.dropWhile isspace)),
        floatBodyEnd (stripSign (s.dropWhile isspace))) := by
  have h1 : NUL ∈ s.dropWhile isspace := mem_dropWhile_of_mem h NUL_not_isspace
  have h2 : NUL ∈ stripSign (s.dropWhile isspace) := NUL_mem_stripSign h1
  have h3 := mem_dropWhile_of_mem h2 NUL_not_isdigit
  unfold strtof
  rw [skipSpace_dropWhile s (List.ne_nil_of_mem h1)]
  simp only [Option.bind_eq_bind, Option.some_bind]
  rw [getSign_eq _ (List.ne_nil_of_mem h1)]
  simp only [Option.some_bind]
  rw [floatDigits_dropWhile _ 0 (List.ne_nil_of_mem h3)]
  simp only [Option.some_bind]
  obtain ⟨h4, h5⟩ := fracPart_eq (hornerQ ((stripSign (s.dropWhile isspace)).takeWhile isdigit) 0)
    _ h3
  rw [h4]
  simp only [Option.some_bind]
  rw [(exponPart_eq _ _ h5).1]
  simp only [Option.some_bind, Option.pure_def, floatBodyValue, floatBodyEnd]
  by_cases hm : (s.dropWhile isspace).head? = some '-' <;> simp [hm]

theorem NUL_mem_floatBodyEnd {p : List Char} (h : NUL ∈ p) : NUL ∈ floatBodyEnd p :=
  (exponPart_eq 0 _ (fracPart_eq 0 _ (mem_dropWhile_of_mem h NUL_not_isdigit)).2).2

/-! ## The count returned by `ParsePair` -/

theorem Str2Type_returns (T : NumType) (s q : List Char) (h : NUL ∈ s) :
    ∃ v, Str2Type T s q = some v := by
  cases T with
  | int t =>
    cases t <;> simp [Str2Type, Str2TInt, strtoint_eq _ 10 s h]
  | float => simp [Str2Type, atof, strtof_eq s h]

/-- On a buffer with a NUL terminator at or after `end`, `ParsePair` returns. -/
theorem ParsePair_returns (T1 T2 : NumType) (range endp : List Char) (v1 : T1.Val)
    (v2 : T2.Val) (h : NUL ∈ endp) :
    ∃ r, ParsePair T1 T2 (range ++ endp) endp v1 v2 = some r := by
  rw [ParsePair_range]
  split
  · exact ⟨_, rfl⟩
  · obtain ⟨w1, hw1⟩ := Str2Type_returns T1
      (range.dropWhile (fun c => !isdigits c) ++ endp)
      ((range.dropWhile (fun c => !isdigits c)).dropWhile isdigits ++ endp)
      (List.mem_append_right _ h)
    rw [hw1]
    simp only [Option.some_bind]
    split
    · exact ⟨_, rfl⟩
    · rename_i c p1 _
      split
      · exact ⟨_, rfl⟩
      · obtain ⟨w2, hw2⟩ := Str2Type_returns T2
          (p1.dropWhile (fun c => !isdigits c) ++ endp)
          ((p1.dropWhile (fun c => !isdigits c)).dropWhile isdigits ++ endp)
          (List.mem_append_right _ h)
        rw [hw2]
        exact ⟨_, rfl⟩

/-- C4: for every range `[begin, end)`, when the range contains no digit-like
character `ParsePair` returns 0, sets the end pointer to `end` and writes neither
`v1` nor `v2`; when the buffer has a NUL terminator at or after `end`,
`ParsePair` returns; and whenever `ParsePair` returns, the count is 0 exactly
when the range contains no digit-like character, a count of 0 comes with the
end pointer at `end` and both outputs untouched, and the count is 0, 1 or 2. -/
theorem ParsePair_zero_iff (T1 T2 : NumType) (range endp : List Char) (v1 : T1.Val)
    (v2 : T2.Val) :
    ((∀ x ∈ range, isdigits x = false) →
        ParsePair T1 T2 (range ++ endp) endp v1 v2 = some ⟨0, endp, v1, v2⟩)
      ∧ (NUL ∈ endp → ∃ r, ParsePair T1 T2 (range ++ endp) endp v1 v2 = some r)
      ∧ ∀ r, ParsePair T1 T2 (range ++ endp) endp v1 v2 = some r →
          (r.count = 0 ↔ ∀ x ∈ range, isdigits x = false)
            ∧ (r.count = 0 → r.endptr = endp ∧ r.v1 = v1 ∧ r.v2 = v2)
            ∧ (r.count = 0 ∨ r.count = 1 ∨ r.count = 2) := by
  refine ⟨?_, ParsePair_returns T1 T2 range endp v1 v2, ?_⟩
  · intro h
    rw [ParsePair_range, if_pos ((dropWhile_not_isdigits_eq_nil range).2 h)]
  · intro r hr
    rw [ParsePair_range] at hr
    by_cases hd : range.dropWhile (fun c => !isdigits c) = []
    · rw [if_pos hd] at hr
      cases hr
      exact ⟨⟨fun _ => (dropWhile_not_isdigits_eq_nil range).1 hd, fun _ => rfl⟩,
        fun _ => ⟨rfl, rfl, rfl⟩, Or.inl rfl⟩
    · have hnot : ¬ ∀ x ∈ range, isdigits x = false :=
        fun h => hd ((dropWhile_not_isdigits_eq_nil range).2 h)
      rw [if_neg hd] at hr
      obtain ⟨w1, -, hr⟩ := Option.bind_eq_some.1 hr
      have hcount : r.count = 1 ∨ r.count = 2 := by
        split at hr
        · cases hr; exact Or.inl rfl
        · split at hr
          · cases hr; exact Or.inl rfl
          · obtain ⟨w2, -, hr⟩ := Option.bind_eq_some.1 hr
            cases hr; exact Or.inr rfl
      have hne0 : r.count ≠ 0 := by rcases hcount with h | h <;> rw [h] <;> decide
      exact ⟨⟨fun h => absurd h hne0, fun h => absurd h hnot⟩, fun h => absurd h hne0,
        Or.inr hcount⟩

set_option maxRecDepth 100000 in
theorem ParsePair_zero_iff_witness :
    ParsePair (.int .int32_t) .float (" a:b ".toList ++ [NUL]) [NUL] 3 (1 / 2)
      = some ⟨0, [NUL], 3, 1 / 2⟩ :=
  (ParsePair_zero_iff (.int .int32_t) .float " a:b ".toList [NUL] 3 (1 / 2)).1 (by decide)

/-! ## Sign handling and wrap-around -/

theorem dropWhile_isspace_cons_of_not (c : Char) (rest : List Char) (h : isspace c = false) :
    (c :: rest).dropWhile isspace = c :: rest := by
  simp [List.dropWhile_cons, h]

theorem stripSign_cons_of_not (c : Char) (rest : List Char) (h1 : c ≠ '-') (h2 : c ≠ '+') :
    stripSign (c :: rest) = c :: rest := by
  simp [stripSign, h1, h2]

/-- C8: for every NUL-terminated string `d` that begins with a decimal digit,
`strtoint` returns on `d`, on `"-" ++ d` and on `"+" ++ d`; the value for
`"-" ++ d` is the negation, in the arithmetic of the target type, of the value
for `d`, and the value for `"+" ++ d` is the value for `d`.  The same holds for
`strtof` in exact arithmetic.  The end pointers agree. -/
theorem sign_handling (V : IntType) (base : Int) (c : Char) (rest : List Char)
    (hc : isdigit c = true) (hnul : NUL ∈ rest) :
    (∃ v e, strtoint V (c :: rest) base = some (v, e)
        ∧ strtoint V ('-' :: c :: rest) base = some (V.wrap (-v), e)
        ∧ strtoint V ('+' :: c :: rest) base = some (v, e))
      ∧ ∃ x e, strtof (c :: rest) = some (x, e)
        ∧ strtof ('-' :: c :: rest) = some (-x, e)
        ∧ strtof ('+' :: c :: rest) = some (x, e) := by
  have hsp := isspace_false_of_isdigit hc
  have hm := ne_minus_of_isdigit hc
  have hp := ne_plus_of_isdigit hc
  have hd : (c :: rest).dropWhile isspace = c :: rest := dropWhile_isspace_cons_of_not c rest hsp
  have hdm : ('-' :: c :: rest).dropWhile isspace = '-' :: c :: rest :=
    dropWhile_isspace_cons_of_not _ _ (by decide)
  have hdp : ('+' :: c :: rest).dropWhile isspace = '+' :: c :: rest :=
    dropWhile_isspace_cons_of_not _ _ (by decide)
  have hs : stripSign (c :: rest) = c :: rest := stripSign_cons_of_not c rest hm hp
  have hsm : stripSign ('-' :: c :: rest) = c :: rest := by simp [stripSign]
  have hsp2 : stripSign ('+' :: c :: rest) = c :: rest := by simp [stripSign]
  have n0 : NUL ∈ c :: rest := List.mem_cons_of_mem _ hnul
  have n1 : NUL ∈ '-' :: c :: rest := List.mem_cons_of_mem _ n0
  have n2 : NUL ∈ '+' :: c :: rest := List.mem_cons_of_mem _ n0
  constructor
  · refine ⟨_, _, strtoint_eq V base _ n0, ?_, ?_⟩
    · rw [strtoint_eq V base _ n1, hdm, hsm, hd, hs]
      simp [hm]
    · rw [strtoint_eq V base _ n2, hdp, hsp2, hd, hs]
      simp [hm]
  · refine ⟨_, _, strtof_eq _ n0, ?_, ?_⟩
    · rw [strtof_eq _ n1, hdm, hsm, hd, hs]
      simp [hm]
    · rw [strtof_eq _ n2, hdp, hsp2, hd, hs]
      simp [hm]

set_option maxRecDepth 100000 in
theorem sign_handling_witness :
    ((∃ v e, strtoint .int ['5', NUL] 10 = some (v, e)
        ∧ strtoint .int ['-', '5', NUL] 10 = some (IntType.int.wrap (-v), e)
        ∧ strtoint .int ['+', '5', NUL] 10 = some (v, e))
      ∧ ∃ x e, strtof ['5', NUL] = some (x, e)
        ∧ strtof ['-', '5', NUL] = some (-x, e)
        ∧ strtof ['+', '5', NUL] = some (x, e))
      ∧ strtoint .int ['5', NUL] 10 = some (5, [NUL])
      ∧ strtoint .int ['-', '5', NUL] 10 = some (-5, [NUL])
      ∧ strtoint .int ['+', '5', NUL] 10 = some (5, [NUL])
      ∧ strtof ['5', NUL] = some (5, [NUL])
      ∧ strtof ['-', '5', NUL] = some (-5, [NUL])
      ∧ strtof ['+', '5', NUL] = some (5, [NUL]) :=
  ⟨sign_handling .int 10 '5' [NUL] (by decide) (by decide), by decide, by decide, by decide,
    by decide!, by decide!, by decide!⟩

/-- C9: for every base and every non-empty run of decimal digits
`d_1 ... d_k` followed by a non-digit, `strtoull` returns
`(d_1 * b^(k-1) + ... + d_k) mod 2^64`: the accumulation wraps at the width of
`uint64_t` and nothing checks for overflow.  This covers every base `b` with
`1 ≤ b ≤ 10`. -/
theorem strtoull_wraps (base : Int) (ds : List Char) (c : Char) (rest : List Char)
    (hne : ds ≠ []) (hds : ∀ x ∈ ds, isdigit x = true) (hc : isdigit c = false) :
    strtoull (ds ++ c :: rest) base = some (positional base ds % 2 ^ 64, c :: rest) := by
  have h := strtoint_shape .uint64_t base [] [] ds c rest (by simp) (Or.inl rfl) hne hds hc
  simp only [List.nil_append] at h
  rw [strtoull, h, horner_eq .uint64_t base ds 0 (wrap_zero _)]
  simp [IntType.wrap, IntType.minVal, IntType.modulus]

set_option maxRecDepth 100000 in
theorem strtoull_wraps_witness :
    strtoull ("18446744073709551617;".toList ++ [NUL]) 10 = some (1, [';', NUL])
      ∧ strtoull ("777 ".toList ++ [NUL]) 8 = some (511, [' ', NUL]) :=
  ⟨strtoull_wraps 10 "18446744073709551617".toList ';' [NUL] (by decide) (by decide)
      (by decide),
    strtoull_wraps 8 "777".toList ' ' [NUL] (by decide) (by decide) (by decide)⟩

/-! ## Inputs on which no digit is consumed -/

theorem stripSign_suffix (p : List Char) : stripSign p <:+ p := by
  cases p with
  | nil => exact List.suffix_refl _
  | cons c r =>
    by_cases hc : c = '-' ∨ c = '+'
    · simp only [stripSign, if_pos hc]; exact List.suffix_cons c r
    · simp only [stripSign, if_neg hc]; exact List.suffix_refl _

theorem fracTail_suffix (p : List Char) : fracTail p <:+ p := by
  cases p with
  | nil => exact List.suffix_refl _
  | cons c r =>
    by_cases hc : c = '.'
    · simp only [fracTail, if_pos hc]
      exact (List.dropWhile_suffix isdigit).trans (List.suffix_cons c r)
    · simp only [fracTail, if_neg hc]; exact List.suffix_refl _

theorem exponTail_suffix (p : List Char) : exponTail p <:+ p := by
  cases p with
  | nil => exact List.suffix_refl _
  | cons c r =>
    by_cases hc : c = 'e' ∨ c = 'E'
    · simp only [exponTail, if_pos hc]
      exact ((List.dropWhile_suffix isdigit).trans (stripSign_suffix r)).trans
        (List.suffix_cons c r)
    · simp only [exponTail, if_neg hc]; exact List.suffix_refl _

/-- The characters between the start pointer and the end pointer `e`. -/
theorem take_consumed (s t e : List Char) (h : t ++ e = s) :
    s.take (s.length - e.length) = t := by
  subst h
  rw [List.length_append, Nat.add_sub_cancel, List.take_left]

theorem mem_consumed (s e pre xs post : List Char) (hs : pre ++ xs ++ post = s)
    (he : e <:+ post) : ∀ x ∈ xs, x ∈ s.take (s.length - e.length) := by
  obtain ⟨m, hm⟩ := he
  intro x hx
  have h : (pre ++ xs ++ m) ++ e = s := by rw [← hs, ← hm]; simp
  rw [take_consumed s _ e h]
  simp [hx]

theorem takeWhile_isdigit_eq_nil (l : List Char)
    (h : ∀ x ∈ l.takeWhile isdigit, isdigit x = false) : l.takeWhile isdigit = [] := by
  cases hl : l.takeWhile isdigit with
  | nil => rfl
  | cons y ys =>
    have hy : y ∈ l.takeWhile isdigit := by rw [hl]; exact List.mem_cons_self _ _
    have h1 := h y hy
    have h2 : isdigit y = true := List.mem_takeWhile_imp hy
    rw [h1] at h2
    cases h2

theorem fracValue_zero_of_no_digit (p : List Char)
    (h : ∀ r, p = '.' :: r → r.takeWhile isdigit = []) : fracValue 0 p = 0 := by
  cases p with
  | nil => rfl
  | cons c r =>
    by_cases hc : c = '.'
    · subst hc
      rw [fracValue, if_pos rfl, h r rfl]
      simp [fracAcc]
    · rw [fracValue, if_neg hc]

theorem exponValue_zero (p : List Char) : exponValue 0 p = 0 := by
  cases p with
  | nil => rfl
  | cons c r =>
    by_cases hc : c = 'e' ∨ c = 'E'
    · by_cases hm : r.head? = some '-' <;> simp [exponValue, hc, hm]
    · simp [exponValue, hc]

theorem floatBodyEnd_of_other (c : Char) (rest : List Char) (hd : isdigit c = false)
    (h1 : c ≠ '.') (h2 : c ≠ 'e') (h3 : c ≠ 'E') : floatBodyEnd (c :: rest) = c :: rest := by
  simp [floatBodyEnd, List.dropWhile_cons, hd, fracTail, exponTail, h1, h2, h3]

/-- C5 (amended): on every NUL-terminated input both `strtoint` and `strtof`
return; when no digit is consumed (no character between the start pointer and
the reported end pointer is a digit) the value is 0; and when the input is
empty or begins with a character that is not whitespace, not `+` or `-`, not
a digit (and, for `strtof`, not `.`, `e` or `E`) the reported end pointer equals
the start pointer. -/
theorem no_digit_consumed (V : IntType) (base : Int) (s : List Char) (h : NUL ∈ s) :
    (∃ v e, strtoint V s base = some (v, e)
        ∧ ((∀ x ∈ s.take (s.length - e.length), isdigit x = false) → v = 0)
        ∧ ((∀ c ∈ s.head?, isspace c = false ∧ c ≠ '-' ∧ c ≠ '+' ∧ isdigit c = false) →
            e = s))
      ∧ ∃ x e, strtof s = some (x, e)
        ∧ ((∀ c ∈ s.take (s.length - e.length), isdigit c = false) → x = 0)
        ∧ ((∀ c ∈ s.head?, isspace c = false ∧ c ≠ '-' ∧ c ≠ '+' ∧ isdigit c = false
              ∧ c ≠ '.' ∧ c ≠ 'e' ∧ c ≠ 'E') → e = s) := by
  obtain ⟨pre, hpre⟩ := (stripSign_suffix (s.dropWhile isspace)).trans
    (List.dropWhile_suffix isspace)
  have hq := List.takeWhile_append_dropWhile isdigit (stripSign (s.dropWhile isspace))
  have hs : pre ++ (stripSign (s.dropWhile isspace)).takeWhile isdigit
      ++ (stripSign (s.dropWhile isspace)).dropWhile isdigit = s := by
    rw [List.append_assoc, hq, hpre]
  constructor
  · refine ⟨_, _, strtoint_eq V base s h, ?_, ?_⟩
    · intro hno
      have hds := takeWhile_isdigit_eq_nil _ (fun x hx =>
        hno x (mem_consumed s _ pre _ _ hs (List.suffix_refl _) x hx))
      rw [hds]
      simp [horner, wrap_zero]
    · intro hhead
      cases s with
      | nil => cases h
      | cons c rest =>
        obtain ⟨h1, h2, h3, h4⟩ := hhead c rfl
        rw [dropWhile_isspace_cons_of_not c rest h1, stripSign_cons_of_not c rest h2 h3]
        simp [List.dropWhile_cons, h4]
  · refine ⟨_, _, strtof_eq s h, ?_, ?_⟩
    · intro hno
      have hsuf : floatBodyEnd (stripSign (s.dropWhile isspace))
          <:+ (stripSign (s.dropWhile isspace)).dropWhile isdigit :=
        (exponTail_suffix _).trans (fracTail_suffix _)
      have hds := takeWhile_isdigit_eq_nil _ (fun x hx =>
        hno x (mem_consumed s _ pre _ _ hs hsuf x hx))
      have hfrac : fracValue 0 ((stripSign (s.dropWhile isspace)).dropWhile isdigit) = 0 := by
        apply fracValue_zero_of_no_digit
        intro r hr
        apply takeWhile_isdigit_eq_nil
        intro x hx
        have hs2 : (pre ++ (stripSign (s.dropWhile isspace)).takeWhile isdigit ++ ['.'])
            ++ r.takeWhile isdigit ++ r.dropWhile isdigit = s := by
          have e1 : (pre ++ (stripSign (s.dropWhile isspace)).takeWhile isdigit ++ ['.'])
              ++ r.takeWhile isdigit ++ r.dropWhile isdigit
              = pre ++ (stripSign (s.dropWhile isspace)).takeWhile isdigit ++ '.' :: r := by
            simp [List.takeWhile_append_dropWhile]
          rw [e1, ← hr]
          exact hs
        have hsuf2 : floatBodyEnd (stripSign (s.dropWhile isspace)) <:+ r.dropWhile isdigit := by
          unfold floatBodyEnd
          rw [hr]
          simp only [fracTail, if_true]
          exact exponTail_suffix _
        exact hno x (mem_consumed s _ _ _ _ hs2 hsuf2 x hx)
      have hval : floatBodyValue (stripSign (s.dropWhile isspace)) = 0 := by
        unfold floatBodyValue
        rw [hds]
        simp only [hornerQ]
        rw [hfrac, exponValue_zero]
      rw [hval]
      simp
    · intro hhead
      cases s with
      | nil => cases h
      | cons c rest =>
        obtain ⟨h1, h2, h3, h4, h5, h6, h7⟩ := hhead c rfl
        rw [dropWhile_isspace_cons_of_not c rest h1, stripSign_cons_of_not c rest h2 h3]
        exact floatBodyEnd_of_other c rest h4 h5 h6 h7

set_option maxRecDepth 100000 in
theorem no_digit_consumed_witness :
    ((∃ v e, strtoint .int ("abc".toList ++ [NUL]) 10 = some (v, e)
        ∧ ((∀ x ∈ ("abc".toList ++ [NUL]).take (("abc".toList ++ [NUL]).length - e.length),
              isdigit x = false) → v = 0)
        ∧ ((∀ c ∈ ("abc".toList ++ [NUL]).head?,
              isspace c = false ∧ c ≠ '-' ∧ c ≠ '+' ∧ isdigit c = false) →
            e = "abc".toList ++ [NUL]))
      ∧ ∃ x e, strtof ("abc".toList ++ [NUL]) = some (x, e)
        ∧ ((∀ c ∈ ("abc".toList ++ [NUL]).take (("abc".toList ++ [NUL]).length - e.length),
              isdigit c = false) → x = 0)
        ∧ ((∀ c ∈ ("abc".toList ++ [NUL]).head?,
              isspace c = false ∧ c ≠ '-' ∧ c ≠ '+' ∧ isdigit c = false
                ∧ c ≠ '.' ∧ c ≠ 'e' ∧ c ≠ 'E') → e = "abc".toList ++ [NUL]))
      ∧ strtoint .int ("abc".toList ++ [NUL]) 10 = some (0, "abc".toList ++ [NUL])
      ∧ strtoint .int [NUL] 10 = some (0, [NUL])
      ∧ strtof ("abc".toList ++ [NUL]) = some (0, "abc".toList ++ [NUL])
      ∧ strtof [NUL] = some (0, [NUL]) :=
  ⟨no_digit_consumed .int 10 ("abc".toList ++ [NUL]) (by decide), by decide, by decide,
    by decide!, by decide!⟩

/-- C5 (as stated) fails: on `" abc"`, `"-"` and `"e"` no digit is consumed and
the value is 0, but the reported end pointer is not the start pointer: the
skipped whitespace, the sign and the exponent marker are consumed. -/
theorem no_digit_consumed_counterexample :
    strtoint .int (" abc".toList ++ [NUL]) 10 = some (0, "abc".toList ++ [NUL])
      ∧ strtoint .int ("-".toList ++ [NUL]) 10 = some (0, [NUL])
      ∧ strtof (" abc".toList ++ [NUL]) = some (0, "abc".toList ++ [NUL])
      ∧ strtof ("e".toList ++ [NUL]) = some (0, [NUL])
      ∧ " abc".toList ++ [NUL] ≠ "abc".toList ++ [NUL]
      ∧ "-".toList ++ [NUL] ≠ [NUL]
      ∧ "e".toList ++ [NUL] ≠ [NUL] :=
  ⟨by decide, by decide, by decide!, by decide!, by decide, by decide, by decide⟩

/-! ## The end pointer of `strtof` and the numeric-token form -/

theorem tokScan_length_le (q : TokState) (s : List Char) : (tokScan q s).length ≤ s.length := by
  induction s generalizing q with
  | nil => simp [tokScan]
  | cons c t ih =>
    rw [tokScan]
    cases tokStep q c with
    | none => simp
    | some q1 => simp only [List.length_cons]; exact Nat.le_succ_of_le (ih q1)

theorem tokScan_suffix (q : TokState) (s : List Char) : tokScan q s <:+ s := by
  induction s generalizing q with
  | nil => simp [tokScan]
  | cons c t ih =>
    rw [tokScan]
    cases tokStep q c with
    | none => exact List.suffix_refl _
    | some q1 => exact (ih q1).trans (List.suffix_cons c t)

/-- The recogniser accepts the prefix of length `n` exactly when `n` does not
pass the point where the scan stops. -/
theorem tokRun_take_iff (q : TokState) (s : List Char) (n : Nat) (hn : n ≤ s.length) :
    (tokRun q (s.take n)).isSome = true ↔ n ≤ s.length - (tokScan q s).length := by
  induction s generalizing q n with
  | nil =>
    have : n = 0 := by simpa using hn
    subst this
    simp [tokRun]
  | cons c t ih =>
    cases n with
    | zero => simp [tokRun]
    | succ k =>
      have hk : k ≤ t.length := by simpa using hn
      rw [List.take_succ_cons, tokRun, tokScan]
      cases hq : tokStep q c with
      | none => simp
      | some q1 =>
        simp only [List.length_cons]
        rw [ih q1 k hk]
        have := tokScan_length_le q1 t
        omega

theorem isTokenForm_false_iff (t : List Char) :
    isTokenForm false t = true ↔ (tokRun .start t).isSome = true := by
  unfold isTokenForm
  cases tokRun .start t <;> simp

theorem tokScan_longest (s : List Char) :
    IsLongestTokenPrefix false s (s.length - (tokScan .start s).length) := by
  refine ⟨Nat.sub_le _ _, ?_, ?_⟩
  · rw [isTokenForm_false_iff, tokRun_take_iff _ _ _ (Nat.sub_le _ _)]
  · intro m hm hform
    rw [isTokenForm_false_iff, tokRun_take_iff _ _ _ hm] at hform
    exact hform

theorem tokScan_expDigits (p : List Char) : tokScan .expDigits p = p.dropWhile isdigit := by
  induction p with
  | nil => rfl
  | cons c r ih =>
    cases hd : isdigit c with
    | true => simp [tokScan, tokStep, hd, ih, List.dropWhile_cons]
    | false => simp [tokScan, tokStep, hd, List.dropWhile_cons]

theorem tokScan_expSign (p : List Char) : tokScan .expSign p = p.dropWhile isdigit := by
  cases p with
  | nil => rfl
  | cons c r =>
    cases hd : isdigit c with
    | true => simp [tokScan, tokStep, hd, tokScan_expDigits, List.dropWhile_cons]
    | false => simp [tokScan, tokStep, hd, List.dropWhile_cons]

theorem tokScan_expMark (p : List Char) :
    tokScan .expMark p = (stripSign p).dropWhile isdigit := by
  cases p with
  | nil => rfl
  | cons c r =>
    by_cases hs : c = '-' ∨ c = '+'
    · simp [tokScan, tokStep, hs, tokScan_expSign, stripSign]
    · cases hd : isdigit c with
      | true => simp [tokScan, tokStep, hs, hd, tokScan_expDigits, stripSign, List.dropWhile_cons]
      | false => simp [tokScan, tokStep, hs, hd, stripSign, List.dropWhile_cons]

theorem tokScan_frac (p : List Char) : tokScan .frac p = exponTail (p.dropWhile isdigit) := by
  induction p with
  | nil => rfl
  | cons c r ih =>
    cases hd : isdigit c with
    | true => simp [tokScan, tokStep, hd, ih, List.dropWhile_cons]
    | false =>
      by_cases he : c = 'e' ∨ c = 'E'
      · simp [tokScan, tokStep, hd, he, tokScan_expMark, exponTail, List.dropWhile_cons]
      · simp [tokScan, tokStep, hd, he, exponTail, List.dropWhile_cons]

theorem floatBodyEnd_cons_digit (c : Char) (r : List Char) (hd : isdigit c = true) :
    floatBodyEnd (c :: r) = floatBodyEnd r := by
  simp [floatBodyEnd, List.dropWhile_cons, hd]

theorem floatBodyEnd_cons_dot (r : List Char) :
    floatBodyEnd ('.' :: r) = exponTail (r.dropWhile isdigit) := by
  have : isdigit '.' = false := by decide
  simp [floatBodyEnd, List.dropWhile_cons, this, fracTail]

theorem floatBodyEnd_cons_exp (c : Char) (r : List Char) (hd : isdigit c = false)
    (hdot : c ≠ '.') (he : c = 'e' ∨ c = 'E') :
    floatBodyEnd (c :: r) = (stripSign r).dropWhile isdigit := by
  simp [floatBodyEnd, List.dropWhile_cons, hd, fracTail, hdot, exponTail, he]

theorem tokScan_int (p : List Char) : tokScan .int p = floatBodyEnd p := by
  induction p with
  | nil => rfl
  | cons c r ih =>
    cases hd : isdigit c with
    | true => simp [tokScan, tokStep, hd, ih, floatBodyEnd_cons_digit]
    | false =>
      by_cases hdot : c = '.'
      · subst hdot
        simp [tokScan, tokStep, hd, tokScan_frac, floatBodyEnd_cons_dot]
      · by_cases he : c = 'e' ∨ c = 'E'
        · simp [tokScan, tokStep, hd, hdot, he, tokScan_expMark,
            floatBodyEnd_cons_exp c r hd hdot he]
        · have h1 : c ≠ 'e' := fun h => he (Or.inl h)
          have h2 : c ≠ 'E' := fun h => he (Or.inr h)
          simp [tokScan, tokStep, hd, hdot, he, floatBodyEnd_of_other c r hd hdot h1 h2]

theorem tokScan_signed (p : List Char) : tokScan .signed p = floatBodyEnd p := by
  cases p with
  | nil => rfl
  | cons c r =>
    cases hd : isdigit c with
    | true => simp [tokScan, tokStep, hd, tokScan_int, floatBodyEnd_cons_digit]
    | false =>
      by_cases hdot : c = '.'
      · subst hdot
        simp [tokScan, tokStep, hd, tokScan_frac, floatBodyEnd_cons_dot]
      · by_cases he : c = 'e' ∨ c = 'E'
        · simp [tokScan, tokStep, hd, hdot, he, tokScan_expMark,
            floatBodyEnd_cons_exp c r hd hdot he]
        · have h1 : c ≠ 'e' := fun h => he (Or.inl h)
          have h2 : c ≠ 'E' := fun h => he (Or.inr h)
          simp [tokScan, tokStep, hd, hdot, he, floatBodyEnd_of_other c r hd hdot h1 h2]

theorem eq_drop_of_suffix {e s : List Char} (h : e <:+ s) :
    e = s.drop (s.length - e.length) := by
  obtain ⟨t, rfl⟩ := h
  rw [List.length_append, Nat.add_sub_cancel, List.drop_left]

/-- The scan of the recogniser stops exactly where `strtof` stops. -/
theorem tokScan_start (p : List Char) :
    tokScan .start p = floatBodyEnd (stripSign (p.dropWhile isspace)) := by
  induction p with
  | nil => rfl
  | cons c r ih =>
    cases hsp : isspace c with
    | true => simp [tokScan, tokStep, hsp, ih, List.dropWhile_cons]
    | false =>
      rw [dropWhile_isspace_cons_of_not c r hsp]
      by_cases hs : c = '-' ∨ c = '+'
      · simp [tokScan, tokStep, hsp, hs, tokScan_signed, stripSign]
      · have hm : c ≠ '-' := fun h => hs (Or.inl h)
        have hp : c ≠ '+' := fun h => hs (Or.inr h)
        rw [stripSign_cons_of_not c r hm hp]
        cases hd : isdigit c with
        | true => simp [tokScan, tokStep, hsp, hs, hd, tokScan_int, floatBodyEnd_cons_digit]
        | false =>
          by_cases hdot : c = '.'
          · subst hdot
            simp [tokScan, tokStep, hsp, hd, tokScan_frac, floatBodyEnd_cons_dot]
          · by_cases he : c = 'e' ∨ c = 'E'
            · simp [tokScan, tokStep, hsp, hs, hd, hdot, he, tokScan_expMark,
                floatBodyEnd_cons_exp c r hd hdot he]
            · have h1 : c ≠ 'e' := fun h => he (Or.inl h)
              have h2 : c ≠ 'E' := fun h => he (Or.inr h)
              simp [tokScan, tokStep, hsp, hs, hd, hdot, he,
                floatBodyEnd_of_other c r hd hdot h1 h2]

/-- C7 (amended): on every NUL-terminated input `strtof` returns, and the
reported end pointer is at the end of the longest prefix of the form
`(whitespace) (sign)? digits ('.' digits)? (('e'|'E') (sign)? digits)?` in
which every `digits`, the exponent digits included, stands for zero or more
digits: an `e` or `E` after the mantissa is consumed, with a sign after it,
also when no exponent digit follows. -/
theorem strtof_endptr_longest (s : List Char) (h : NUL ∈ s) :
    ∃ v e, strtof s = some (v, e) ∧ e = s.drop (s.length - e.length)
      ∧ IsLongestTokenPrefix false s (s.length - e.length) := by
  refine ⟨_, _, strtof_eq s h, ?_, ?_⟩
  · rw [← tokScan_start]
    exact eq_drop_of_suffix (tokScan_suffix .start s)
  · rw [← tokScan_start]
    exact tokScan_longest s

set_option maxRecDepth 100000 in
theorem strtof_endptr_longest_witness :
    (∃ v e, strtof ("-1.5e+2x".toList ++ [NUL]) = some (v, e)
        ∧ e = ("-1.5e+2x".toList ++ [NUL]).drop
            (("-1.5e+2x".toList ++ [NUL]).length - e.length)
        ∧ IsLongestTokenPrefix false ("-1.5e+2x".toList ++ [NUL])
            (("-1.5e+2x".toList ++ [NUL]).length - e.length))
      ∧ strtof ("-1.5e+2x".toList ++ [NUL]) = some (-150, ['x', NUL])
      ∧ strtof ("1.5ex".toList ++ [NUL]) = some (3 / 2, ['x', NUL]) :=
  ⟨strtof_endptr_longest ("-1.5e+2x".toList ++ [NUL]) (by decide), by decide!, by decide!⟩

/-- C7 (as stated) fails: on `"1e"` the `e` is followed by no exponent digit,
so the longest prefix of the stated form (exponent digits required) is `"1"`,
of length 1; `strtof` consumes the `e` and reports the end pointer at
offset 2, after a prefix `"1e"` that is not of the stated form. -/
theorem strtof_endptr_longest_counterexample :
    strtof ("1e".toList ++ [NUL]) = some (1, [NUL])
      ∧ ("1e".toList ++ [NUL]).length - [NUL].length = 2
      ∧ isTokenForm true (("1e".toList ++ [NUL]).take 1) = true
      ∧ isTokenForm true (("1e".toList ++ [NUL]).take 2) = false
      ∧ isTokenForm true (("1e".toList ++ [NUL]).take 3) = false :=
  ⟨by decide!, by decide, by decide, by decide, by decide⟩

/-! ## The fractional part of `strtof` -/

theorem positional_bounds (ds : List Char) (hds : ∀ x ∈ ds, isdigit x = true) :
    0 ≤ positional 10 ds ∧ positional 10 ds < 10 ^ ds.length := by
  induction ds with
  | nil => simp [positional]
  | cons d ds ih =>
    have hd := hds d (List.mem_cons_self _ _)
    obtain ⟨h1, h2⟩ := ih (fun y hy => hds y (List.mem_cons_of_mem _ hy))
    have d0 := digitVal_nonneg hd
    have d9 := digitVal_le hd
    have hp : (0 : Int) < 10 ^ ds.length := by positivity
    simp only [positional, List.length_cons]
    constructor
    · exact add_nonneg (mul_nonneg d0 hp.le) h1
    · have : digitVal d * 10 ^ ds.length ≤ 9 * 10 ^ ds.length :=
        mul_le_mul_of_nonneg_right d9 hp.le
      rw [pow_succ]
      omega

theorem wrapU32_modEq (x : Int) : wrapU32 x ≡ x [ZMOD 2 ^ 32] := Int.mod_modEq _ _

/-- The accumulators of the fraction loop after the digits `ds`: both are the
exact quantities reduced modulo `2^32`. -/
theorem fracAcc_eq (ds : List Char) (val2 pow10 : Int) (hv : wrapU32 val2 = val2)
    (hp : wrapU32 pow10 = pow10) :
    fracAcc ds val2 pow10
      = (wrapU32 (val2 * 10 ^ ds.length + positional 10 ds), wrapU32 (pow10 * 10 ^ ds.length)) := by
  induction ds generalizing val2 pow10 with
  | nil => simp [fracAcc, positional, hv, hp]
  | cons d ds ih =>
    have idem : ∀ x, wrapU32 (wrapU32 x) = wrapU32 x := fun x => by
      unfold wrapU32; exact Int.emod_emod_of_dvd _ (dvd_refl _)
    simp only [fracAcc, positional, List.length_cons]
    rw [ih _ _ (idem _) (idem _)]
    congr 1
    · have h := ((wrapU32_modEq (val2 * 10 + digitVal d)).mul_right (10 ^ ds.length)).add_right
        (positional 10 ds)
      have e : (val2 * 10 + digitVal d) * 10 ^ ds.length + positional 10 ds
          = val2 * 10 ^ (ds.length + 1) + (digitVal d * 10 ^ ds.length + positional 10 ds) := by
        ring
      rw [e] at h
      exact h
    · have h := (wrapU32_modEq (pow10 * 10)).mul_right (10 ^ ds.length)
      have e : pow10 * 10 * 10 ^ ds.length = pow10 * 10 ^ (ds.length + 1) := by ring
      rw [e] at h
      exact h

theorem pow10_lt_two32 (k : Nat) (hk : k ≤ 9) : (10 : Int) ^ k < 2 ^ 32 := by
  have h : (10 : Int) ^ k ≤ 10 ^ 9 := pow_le_pow_right₀ (by norm_num) hk
  have : (10 : Int) ^ 9 < 2 ^ 32 := by norm_num
  omega

/-- With at most 9 fractional digits the two accumulators hold the exact
digit value and the exact power of ten. -/
theorem fracAcc_exact (fs : List Char) (hfs : ∀ x ∈ fs, isdigit x = true)
    (hk : fs.length ≤ 9) : fracAcc fs 0 1 = (positional 10 fs, 10 ^ fs.length) := by
  rw [fracAcc_eq fs 0 1 (by decide) (by decide)]
  obtain ⟨h1, h2⟩ := positional_bounds fs hfs
  have h3 := pow10_lt_two32 fs.length hk
  have h4 : (0 : Int) ≤ 10 ^ fs.length := by positivity
  simp only [zero_mul, zero_add, one_mul, wrapU32]
  rw [Int.emod_eq_of_lt h1 (by omega), Int.emod_eq_of_lt h4 h3]

theorem two32_dvd_pow10_iff (k : Nat) : 2 ^ 32 ∣ 10 ^ k ↔ 32 ≤ k := by
  constructor
  · intro h
    have h10 : (10 : Nat) ^ k = 2 ^ k * 5 ^ k := by rw [← Nat.mul_pow]
    rw [h10] at h
    have hc : Nat.Coprime (2 ^ 32) (5 ^ k) := Nat.Coprime.pow _ _ (by decide)
    have h2 := hc.dvd_of_dvd_mul_right h
    exact (Nat.pow_dvd_pow_iff_le_right (by decide)).1 h2
  · intro h
    obtain ⟨j, rfl⟩ : ∃ j, k = 32 + j := ⟨k - 32, by omega⟩
    rw [pow_add]
    exact Dvd.dvd.mul_right (by norm_num) _

theorem pow10_mod_int (k : Nat) :
    (10 : Int) ^ k % 2 ^ 32 = ((10 ^ k % 2 ^ 32 : Nat) : Int) := by
  push_cast
  rfl

theorem two32_le_pow10 (k : Nat) (h : 10 ≤ k) : (2 : Int) ^ 32 ≤ 10 ^ k := by
  have h1 : (10 : Int) ^ 10 ≤ 10 ^ k := pow_le_pow_right₀ (by norm_num) h
  have : (2 : Int) ^ 32 ≤ 10 ^ 10 := by norm_num
  omega

theorem fracDigits_append (fs : List Char) (c : Char) (rest : List Char) (val2 pow10 : Int)
    (hfs : ∀ x ∈ fs, isdigit x = true) (hc : isdigit c = false) :
    fracDigits (fs ++ c :: rest) val2 pow10
      = some ((fracAcc fs val2 pow10).1, (fracAcc fs val2 pow10).2, c :: rest) := by
  induction fs generalizing val2 pow10 with
  | nil => simp [fracDigits, fracAcc, hc]
  | cons d ds ih =>
    have hd : isdigit d = true := hfs d (List.mem_cons_self _ _)
    have ih2 := ih (wrapU32 (val2 * 10 + digitVal d)) (wrapU32 (pow10 * 10))
      (fun x hx => hfs x (List.mem_cons_of_mem _ hx))
    simp [fracDigits, fracAcc, hd, ih2]

/-- C20: in `strtof`, after the fraction loop has scanned `k` fractional
digits (followed by a non-digit) the `unsigned` divisor `pow10` is
`10^k mod 2^32`; it is non-zero exactly when `k < 32`; it is the true `10^k`
exactly when `k ≤ 9`, and then the fractional accumulator `val2` holds the
exact value of the digits. -/
theorem fraction_divisor (fs : List Char) (c : Char) (rest : List Char)
    (hfs : ∀ x ∈ fs, isdigit x = true) (hc : isdigit c = false) :
    ∃ val2 pow10, fracDigits (fs ++ c :: rest) 0 1 = some (val2, pow10, c :: rest)
      ∧ pow10 = 10 ^ fs.length % 2 ^ 32
      ∧ (pow10 ≠ 0 ↔ fs.length < 32)
      ∧ (pow10 = 10 ^ fs.length ↔ fs.length ≤ 9)
      ∧ (fs.length ≤ 9 → val2 = positional 10 fs) := by
  have hacc := fracAcc_eq fs 0 1 (by decide) (by decide)
  simp only [zero_mul, zero_add, one_mul] at hacc
  refine ⟨_, _, fracDigits_append fs c rest 0 1 hfs hc, ?_, ?_, ?_, ?_⟩
  · rw [hacc]; rfl
  · rw [hacc]
    show (10 : Int) ^ fs.length % 2 ^ 32 ≠ 0 ↔ fs.length < 32
    rw [pow10_mod_int]
    have hiff := two32_dvd_pow10_iff fs.length
    rw [Nat.dvd_iff_mod_eq_zero] at hiff
    constructor
    · intro h
      by_contra hk
      exact h (by exact_mod_cast hiff.2 (by omega))
    · intro hk h
      have : 10 ^ fs.length % 2 ^ 32 = 0 := by exact_mod_cast h
      have := hiff.1 this
      omega
  · rw [hacc]
    show (10 : Int) ^ fs.length % 2 ^ 32 = 10 ^ fs.length ↔ fs.length ≤ 9
    constructor
    · intro h
      by_contra hk
      have h1 := two32_le_pow10 fs.length (by omega)
      have h2 := Int.emod_lt_of_pos ((10 : Int) ^ fs.length) (by norm_num : (0 : Int) < 2 ^ 32)
      omega
    · intro hk
      exact Int.emod_eq_of_lt (by positivity) (pow10_lt_two32 _ hk)
  · intro hk
    rw [fracAcc_exact fs hfs hk]

set_option maxRecDepth 100000 in
theorem fraction_divisor_witness :
    ∃ val2 pow10, fracDigits ("0000000001".toList ++ ' ' :: [NUL]) 0 1
        = some (val2, pow10, ' ' :: [NUL])
      ∧ pow10 = 10 ^ "0000000001".toList.length % 2 ^ 32
      ∧ (pow10 ≠ 0 ↔ "0000000001".toList.length < 32)
      ∧ (pow10 = 10 ^ "0000000001".toList.length ↔ "0000000001".toList.length ≤ 9)
      ∧ ("0000000001".toList.length ≤ 9 → val2 = positional 10 "0000000001".toList) :=
  fraction_divisor "0000000001".toList ' ' [NUL] (by decide) (by decide)

/-! ## The integer specializations of `Str2T` -/

/-- C17: for every non-empty decimal digit string denoting `n < 2^32`
(followed by a non-digit), the `uint32_t` specialization of the typed-parse
adapter returns `n`, although it delegates to `strtoint<int>`: that call
returns `n` wrapped into the range of `int` (negative from `2^31` on), and the
conversion to `uint32_t` gives `n` back. -/
theorem Str2Type_uint32 (ds : List Char) (c : Char) (rest q : List Char) (hne : ds ≠ [])
    (hds : ∀ x ∈ ds, isdigit x = true) (hc : isdigit c = false)
    (hn : positional 10 ds < 2 ^ 32) :
    strtoint .int (ds ++ c :: rest) 10 = some (IntType.int.wrap (positional 10 ds), c :: rest)
      ∧ Str2Type (.int .uint32_t) (ds ++ c :: rest) q = some (positional 10 ds) := by
  have h0 := (positional_bounds ds hds).1
  have hs : signedDecimal [] ds = positional 10 ds := by simp [signedDecimal]
  constructor
  · have h := strtoint_value .int [] [] ds c rest (by simp) (Or.inl rfl) hne hds hc
    simpa [hs] using h
  · have h := Str2TInt_token .uint32_t [] ds c rest q (Or.inl rfl) hne hds hc
      (by rw [hs]; exact ⟨h0, hn⟩)
    simpa [hs, Str2Type] using h

set_option maxRecDepth 100000 in
theorem Str2Type_uint32_witness :
    strtoint .int ("4294967295".toList ++ ';' :: [NUL]) 10 = some (-1, ';' :: [NUL])
      ∧ Str2Type (.int .uint32_t) ("4294967295".toList ++ ';' :: [NUL]) (';' :: [NUL])
        = some (4294967295 : Int) :=
  Str2Type_uint32 "4294967295".toList ';' [NUL] (';' :: [NUL]) (by decide) (by decide)
    (by decide) (by decide)

theorem isspace_false_of_isdigits {c : Char} (h : isdigits c = true) : isspace c = false := by
  cases hs : isspace c with
  | false => rfl
  | true =>
    simp only [isspace, Bool.or_eq_true, beq_iff_eq] at hs
    rcases hs with (((hs | hs) | hs) | hs) | hs <;> subst hs <;> revert h <;> decide

theorem intDigits_append_stop (V : IntType) (base : Int) (xs : List Char) (c : Char)
    (rest : List Char) (value : Int) (hc : isdigit c = false) :
    intDigits V base (xs ++ c :: rest) value
      = some (horner V base (xs.takeWhile isdigit) value, xs.dropWhile isdigit ++ c :: rest) := by
  induction xs generalizing value with
  | nil => simp [intDigits, horner, hc]
  | cons x xs ih =>
    cases hx : isdigit x with
    | true =>
      simp [intDigits, horner, hx, ih, List.takeWhile_cons, List.dropWhile_cons]
    | false =>
      simp [intDigits, horner, hx, List.takeWhile_cons, List.dropWhile_cons]

theorem getSign_append_cons (t0 : Char) (ts X : List Char) :
    getSign (t0 :: ts ++ X)
      = some (decide (t0 ≠ '-'), stripSign (t0 :: ts) ++ X) := by
  by_cases h1 : t0 = '-'
  · subst h1; simp [getSign, stripSign]
  · by_cases h2 : t0 = '+'
    · subst h2; simp [getSign, stripSign]
    · simp [getSign, stripSign, h1, h2]

/-- The run of `strtoint` on a token that begins with a digit-like character
and is followed by a non-digit: the value depends on the token only and the
end pointer is inside the token or at the character that follows it. -/
theorem strtoint_token (V : IntType) (base : Int) (t0 : Char) (ts : List Char) (c : Char)
    (rest : List Char) (h0 : isdigits t0 = true) (hc : isdigit c = false) :
    strtoint V (t0 :: ts ++ c :: rest) base
      = some (if t0 = '-'
          then V.wrap (-horner V base ((stripSign (t0 :: ts)).takeWhile isdigit) 0)
          else horner V base ((stripSign (t0 :: ts)).takeWhile isdigit) 0,
        (stripSign (t0 :: ts)).dropWhile isdigit ++ c :: rest) := by
  have h1 : skipSpace (t0 :: ts ++ c :: rest) = some (t0 :: ts ++ c :: rest) := by
    simp [skipSpace, isspace_false_of_isdigits h0]
  unfold strtoint
  rw [h1]
  simp only [Option.bind_eq_bind, Option.some_bind]
  rw [getSign_append_cons]
  simp only [Option.some_bind]
  rw [intDigits_append_stop V base _ c rest 0 hc]
  simp only [Option.some_bind, Option.pure_def]
  by_cases hm : t0 = '-' <;> simp [hm]

/-- C15: for each of the four integer output types, when the token
`buffer[p..q)` is a non-empty run of digit-like characters and `buffer[q]` is
not a digit, the underlying `strtoint` stops inside the token or at `q` (its
end pointer is never past `q`), with the value and the stopping place it has
on the token taken alone as a NUL-terminated string; so `Str2Type<T>(p, q)`,
which ignores `q`, equals the integer parse of the isolated token. -/
theorem Str2Type_int_within_token (T : IntOut) (tok : List Char) (c : Char)
    (rest : List Char) (hne : tok ≠ []) (htok : ∀ x ∈ tok, isdigits x = true)
    (hc : isdigit c = false) :
    (∀ V : IntType, ∃ v e, e <:+ tok
        ∧ strtoint V (tok ++ c :: rest) 10 = some (v, e ++ c :: rest)
        ∧ strtoint V (tok ++ [NUL]) 10 = some (v, e ++ [NUL]))
      ∧ ∃ w, Str2Type (.int T) (tok ++ c :: rest) (c :: rest) = some w
        ∧ Str2Type (.int T) (tok ++ [NUL]) [NUL] = some w := by
  obtain ⟨t0, ts, rfl⟩ := List.exists_cons_of_ne_nil hne
  have h0 : isdigits t0 = true := htok t0 (List.mem_cons_self _ _)
  have hsuf : (stripSign (t0 :: ts)).dropWhile isdigit <:+ t0 :: ts :=
    (List.dropWhile_suffix isdigit).trans (stripSign_suffix _)
  have hbuf := fun V => strtoint_token V 10 t0 ts c rest h0 hc
  have halone := fun V => strtoint_token V 10 t0 ts NUL [] h0 NUL_not_isdigit
  constructor
  · intro V
    exact ⟨_, _, hsuf, hbuf V, halone V⟩
  · cases T <;> simp only [Str2Type, Str2TInt] <;> rw [hbuf, halone] <;> exact ⟨_, rfl, rfl⟩

set_option maxRecDepth 100000 in
theorem Str2Type_int_within_token_witness :
    (∀ V : IntType, ∃ v e, e <:+ "-12.5".toList
        ∧ strtoint V ("-12.5".toList ++ ':' :: "7".toList) 10
          = some (v, e ++ ':' :: "7".toList)
        ∧ strtoint V ("-12.5".toList ++ [NUL]) 10 = some (v, e ++ [NUL]))
      ∧ ∃ w, Str2Type (.int .int64_t) ("-12.5".toList ++ ':' :: "7".toList)
            (':' :: "7".toList) = some w
        ∧ Str2Type (.int .int64_t) ("-12.5".toList ++ [NUL]) [NUL] = some w :=
  Str2Type_int_within_token .int64_t "-12.5".toList ':' "7".toList (by decide) (by decide)
    (by decide)

/-! ## Reads stay at or before the NUL terminator -/

theorem skipSpace_frame (s e j : List Char) (h : skipSpace s = some e) :
    skipSpace (s ++ j) = some (e ++ j) := by
  induction s with
  | nil => simp [skipSpace] at h
  | cons c p ih =>
    rw [skipSpace] at h
    rw [List.cons_append, skipSpace]
    split
    · rename_i hc; rw [if_pos hc] at h; exact ih h
    · rename_i hc; rw [if_neg hc] at h; cases h; rfl

theorem getSign_frame (s : List Char) (b : Bool) (e j : List Char)
    (h : getSign s = some (b, e)) : getSign (s ++ j) = some (b, e ++ j) := by
  cases s with
  | nil => simp [getSign] at h
  | cons c p =>
    rw [getSign] at h
    rw [List.cons_append, getSign]
    split
    · rename_i hc; rw [if_pos hc] at h; cases h; rfl
    · rename_i hc
      rw [if_neg hc] at h
      split
      · rename_i hc2; rw [if_pos hc2] at h; cases h; rfl
      · rename_i hc2; rw [if_neg hc2] at h; cases h; rfl

theorem getExpSign_frame (s : List Char) (b : Bool) (e j : List Char)
    (h : getExpSign s = some (b, e)) : getExpSign (s ++ j) = some (b, e ++ j) := by
  cases s with
  | nil => simp [getExpSign] at h
  | cons c p =>
    rw [getExpSign] at h
    rw [List.cons_append, getExpSign]
    split
    · rename_i hc; rw [if_pos hc] at h; cases h; rfl
    · rename_i hc
      rw [if_neg hc] at h
      split
      · rename_i hc2; rw [if_pos hc2] at h; cases h; rfl
      · rename_i hc2; rw [if_neg hc2] at h; cases h; rfl

theorem intDigits_frame (V : IntType) (base : Int) (s : List Char) (value v : Int)
    (e j : List Char) (h : intDigits V base s value = some (v, e)) :
    intDigits V base (s ++ j) value = some (v, e ++ j) := by
  induction s generalizing value with
  | nil => simp [intDigits] at h
  | cons c p ih =>
    rw [intDigits] at h
    rw [List.cons_append, intDigits]
    split
    · rename_i hc; rw [if_pos hc] at h; exact ih _ h
    · rename_i hc; rw [if_neg hc] at h; cases h; rfl

theorem floatDigits_frame (s : List Char) (value v : Rat) (e j : List Char)
    (h : floatDigits s value = some (v, e)) : floatDigits (s ++ j) value = some (v, e ++ j) := by
  induction s generalizing value with
  | nil => simp [floatDigits] at h
  | cons c p ih =>
    rw [floatDigits] at h
    rw [List.cons_append, floatDigits]
    split
    · rename_i hc; rw [if_pos hc] at h; exact ih _ h
    · rename_i hc; rw [if_neg hc] at h; cases h; rfl

theorem fracDigits_frame (s : List Char) (val2 pow10 a b : Int) (e j : List Char)
    (h : fracDigits s val2 pow10 = some (a, b, e)) :
    fracDigits (s ++ j) val2 pow10 = some (a, b, e ++ j) := by
  induction s generalizing val2 pow10 with
  | nil => simp [fracDigits] at h
  | cons c p ih =>
    rw [fracDigits] at h
    rw [List.cons_append, fracDigits]
    split
    · rename_i hc; rw [if_pos hc] at h; exact ih _ _ h
    · rename_i hc; rw [if_neg hc] at h; cases h; rfl

theorem exponDigits_frame (s : List Char) (expon a : Int) (e j : List Char)
    (h : exponDigits s expon = some (a, e)) :
    exponDigits (s ++ j) expon = some (a, e ++ j) := by
  induction s generalizing expon with
  | nil => simp [exponDigits] at h
  | cons c p ih =>
    rw [exponDigits] at h
    rw [List.cons_append, exponDigits]
    split
    · rename_i hc; rw [if_pos hc] at h; exact ih _ h
    · rename_i hc; rw [if_neg hc] at h; cases h; rfl

theorem fracPart_frame (value v : Rat) (s e j : List Char)
    (h : fracPart value s = some (v, e)) : fracPart value (s ++ j) = some (v, e ++ j) := by
  cases s with
  | nil => simp [fracPart] at h
  | cons c p =>
    rw [fracPart] at h
    rw [List.cons_append, fracPart]
    split
    · rename_i hc
      rw [if_pos hc] at h
      obtain ⟨⟨a, b, e1⟩, h1, h2⟩ := Option.bind_eq_some.1 h
      simp only [Option.pure_def, Option.some.injEq, Prod.mk.injEq] at h2
      obtain ⟨rfl, rfl⟩ := h2
      simp only [Option.bind_eq_bind, fracDigits_frame p 0 1 a b e1 j h1, Option.some_bind,
        Option.pure_def]
    · rename_i hc; rw [if_neg hc] at h; cases h; rfl

theorem exponPart_frame (value v : Rat) (s e j : List Char)
    (h : exponPart value s = some (v, e)) : exponPart value (s ++ j) = some (v, e ++ j) := by
  cases s with
  | nil => simp [exponPart] at h
  | cons c p =>
    rw [exponPart] at h
    rw [List.cons_append, exponPart]
    split
    · rename_i hc
      rw [if_pos hc] at h
      obtain ⟨⟨b, p1⟩, h1, h2⟩ := Option.bind_eq_some.1 h
      obtain ⟨⟨a, e1⟩, h3, h4⟩ := Option.bind_eq_some.1 h2
      simp only [Option.pure_def, Option.some.injEq, Prod.mk.injEq] at h4
      obtain ⟨rfl, rfl⟩ := h4
      simp only [Option.bind_eq_bind, getExpSign_frame p b p1 j h1, Option.some_bind,
        exponDigits_frame p1 0 a e1 j h3, Option.pure_def]
    · rename_i hc; rw [if_neg hc] at h; cases h; rfl

/-- Memory stored after the allocation does not change a run of `strtoint`
that stayed inside the allocation. -/
theorem strtoint_frame (V : IntType) (base : Int) (s : List Char) (v : Int) (e j : List Char)
    (h : strtoint V s base = some (v, e)) : strtoint V (s ++ j) base = some (v, e ++ j) := by
  unfold strtoint at h ⊢
  obtain ⟨p1, h1, h⟩ := Option.bind_eq_some.1 h
  obtain ⟨⟨sign, p2⟩, h2, h⟩ := Option.bind_eq_some.1 h
  obtain ⟨⟨value, p3⟩, h3, h⟩ := Option.bind_eq_some.1 h
  simp only [Option.pure_def, Option.some.injEq, Prod.mk.injEq] at h
  obtain ⟨rfl, rfl⟩ := h
  simp only [Option.bind_eq_bind, skipSpace_frame s p1 j h1, Option.some_bind,
    getSign_frame p1 sign p2 j h2, intDigits_frame V base p2 0 value p3 j h3, Option.pure_def]

/-- Memory stored after the allocation does not change a run of `strtof` that
stayed inside the allocation. -/
theorem strtof_frame (s : List Char) (v : Rat) (e j : List Char)
    (h : strtof s = some (v, e)) : strtof (s ++ j) = some (v, e ++ j) := by
  unfold strtof at h ⊢
  obtain ⟨p1, h1, h⟩ := Option.bind_eq_some.1 h
  obtain ⟨⟨sign, p2⟩, h2, h⟩ := Option.bind_eq_some.1 h
  obtain ⟨⟨value, p3⟩, h3, h⟩ := Option.bind_eq_some.1 h
  obtain ⟨⟨value2, p4⟩, h4, h⟩ := Option.bind_eq_some.1 h
  obtain ⟨⟨value3, p5⟩, h5, h⟩ := Option.bind_eq_some.1 h
  simp only [Option.pure_def, Option.some.injEq, Prod.mk.injEq] at h
  obtain ⟨rfl, rfl⟩ := h
  simp only [Option.bind_eq_bind, skipSpace_frame s p1 j h1, Option.some_bind,
    getSign_frame p1 sign p2 j h2, floatDigits_frame p2 0 value p3 j h3,
    fracPart_frame value value2 p3 p4 j h4, exponPart_frame value2 value3 p4 p5 j h5,
    Option.pure_def]

theorem suffix_concat_of_ne_nil {E pre : List Char} {c : Char} (h : E <:+ pre ++ [c])
    (hne : E ≠ []) : ∃ e, E = e ++ [c] ∧ e <:+ pre := by
  obtain ⟨t, ht⟩ := h
  have hE := (List.dropLast_append_getLast hne).symm
  rw [hE, ← List.append_assoc] at ht
  have hinj := List.append_inj' ht rfl
  refine ⟨E.dropLast, ?_, ⟨t, hinj.1⟩⟩
  rw [← hinj.2]
  exact hE

/-- C13: on every buffer `pre ++ NUL :: junk` (in particular with `pre` the
characters before the first NUL) `strtoint` and `strtof` return, being total
functions, with the result they have when the allocation ends at that NUL:
no character after the NUL is read, since a read outside the allocation would
make the bounds-checked run fail; and the reported end pointer is at or before
the NUL. -/
theorem scan_within_terminator (V : IntType) (base : Int) (pre junk : List Char) :
    (∃ v e, e <:+ pre ∧ strtoint V (pre ++ [NUL]) base = some (v, e ++ [NUL])
        ∧ strtoint V (pre ++ NUL :: junk) base = some (v, e ++ NUL :: junk))
      ∧ ∃ x e, e <:+ pre ∧ strtof (pre ++ [NUL]) = some (x, e ++ [NUL])
        ∧ strtof (pre ++ NUL :: junk) = some (x, e ++ NUL :: junk) := by
  have hmem : NUL ∈ pre ++ [NUL] := by simp
  have h1 : NUL ∈ (pre ++ [NUL]).dropWhile isspace := mem_dropWhile_of_mem hmem NUL_not_isspace
  have h2 : NUL ∈ stripSign ((pre ++ [NUL]).dropWhile isspace) := NUL_mem_stripSign h1
  have hsuf : stripSign ((pre ++ [NUL]).dropWhile isspace) <:+ pre ++ [NUL] :=
    (stripSign_suffix _).trans (List.dropWhile_suffix isspace)
  have hcat : ∀ e : List Char, pre ++ NUL :: junk = pre ++ [NUL] ++ junk
      ∧ e ++ NUL :: junk = e ++ [NUL] ++ junk := fun e => by simp
  constructor
  · have hi := strtoint_eq V base (pre ++ [NUL]) hmem
    have h3 := mem_dropWhile_of_mem h2 NUL_not_isdigit
    obtain ⟨e, he, hep⟩ := suffix_concat_of_ne_nil
      ((List.dropWhile_suffix isdigit).trans hsuf) (List.ne_nil_of_mem h3)
    rw [he] at hi
    refine ⟨_, e, hep, hi, ?_⟩
    rw [(hcat e).1, (hcat e).2]
    exact strtoint_frame V base _ _ _ junk hi
  · have hf := strtof_eq (pre ++ [NUL]) hmem
    have h3 := NUL_mem_floatBodyEnd h2
    obtain ⟨e, he, hep⟩ := suffix_concat_of_ne_nil
      ((((exponTail_suffix _).trans (fracTail_suffix _)).trans
        (List.dropWhile_suffix isdigit)).trans hsuf) (List.ne_nil_of_mem h3)
    unfold floatBodyEnd at hf
    rw [he] at hf
    refine ⟨_, e, hep, hf, ?_⟩
    rw [(hcat e).1, (hcat e).2]
    exact strtof_frame _ _ _ junk hf

set_option maxRecDepth 100000 in
theorem scan_within_terminator_witness :
    ((∃ v e, e <:+ " 12ab".toList
        ∧ strtoint .int (" 12ab".toList ++ [NUL]) 10 = some (v, e ++ [NUL])
        ∧ strtoint .int (" 12ab".toList ++ NUL :: "99".toList) 10
          = some (v, e ++ NUL :: "99".toList))
      ∧ ∃ x e, e <:+ " 12ab".toList ∧ strtof (" 12ab".toList ++ [NUL]) = some (x, e ++ [NUL])
        ∧ strtof (" 12ab".toList ++ NUL :: "99".toList) = some (x, e ++ NUL :: "99".toList))
      ∧ strtoint .int ("12".toList ++ [NUL]) 10 = some (12, [] ++ [NUL])
      ∧ strtof ("1e".toList ++ [NUL]) = some (1, [] ++ [NUL]) :=
  ⟨scan_within_terminator .int 10 " 12ab".toList "99".toList, by decide, by decide!⟩

/-! ## Progress of `ParsePair` -/

theorem dropWhile_isdigits_length_lt (range : List Char)
    (h : range.dropWhile (fun c => !isdigits c) ≠ []) :
    ((range.dropWhile (fun c => !isdigits c)).dropWhile isdigits).length < range.length := by
  have hle := (List.dropWhile_suffix (l := range) (fun c => !isdigits c)).length_le
  have hhead := dropWhile_head_false (fun c => !isdigits c) range
  cases hD : range.dropWhile (fun c => !isdigits c) with
  | nil => exact absurd hD h
  | cons c r =>
    rw [hD] at hhead hle
    have hc : isdigits c = true := by simpa using hhead c rfl
    rw [List.dropWhile_cons, if_pos hc]
    have := (List.dropWhile_suffix (l := r) isdigits).length_le
    simp only [List.length_cons] at hle
    omega

/-- The end pointer written by `ParsePair` lies between `begin` and `end`, and
strictly after `begin` when the count is 1 or 2. -/
theorem ParsePair_endptr (T1 T2 : NumType) (range endp : List Char) (v1 : T1.Val)
    (v2 : T2.Val) (r : PairResult T1 T2)
    (hr : ParsePair T1 T2 (range ++ endp) endp v1 v2 = some r) :
    ∃ X, r.endptr = X ++ endp ∧ X <:+ range
      ∧ ((r.count = 1 ∨ r.count = 2) → X.length < range.length) := by
  rw [ParsePair_range] at hr
  by_cases hd : range.dropWhile (fun c => !isdigits c) = []
  · rw [if_pos hd] at hr
    cases hr
    exact ⟨[], rfl, List.nil_suffix, fun h => by rcases h with h | h <;> cases h⟩
  · rw [if_neg hd] at hr
    obtain ⟨w1, -, hr⟩ := Option.bind_eq_some.1 hr
    have hlt := dropWhile_isdigits_length_lt range hd
    have hs1 : (range.dropWhile (fun c => !isdigits c)).dropWhile isdigits <:+ range :=
      (List.dropWhile_suffix isdigits).trans (List.dropWhile_suffix _)
    have hs2 := List.dropWhile_suffix
      (l := (range.dropWhile (fun c => !isdigits c)).dropWhile isdigits) isblank
    generalize hB : ((range.dropWhile (fun c => !isdigits c)).dropWhile isdigits).dropWhile
      isblank = B at hr hs2
    cases B with
    | nil =>
      cases hr
      exact ⟨[], rfl, List.nil_suffix, fun _ => by simp only [List.length_nil]; omega⟩
    | cons c p1 =>
      have hBle := hs2.length_le
      simp only [List.length_cons] at hBle
      by_cases hc : c = ':'
      · simp only [hc, ne_eq, not_true_eq_false, if_false] at hr
        obtain ⟨w2, -, hr⟩ := Option.bind_eq_some.1 hr
        cases hr
        have hs3 : (p1.dropWhile (fun c => !isdigits c)).dropWhile isdigits <:+ p1 :=
          (List.dropWhile_suffix isdigits).trans (List.dropWhile_suffix _)
        refine ⟨_, rfl, ((hs3.trans (List.suffix_cons c p1)).trans hs2).trans hs1, fun _ => ?_⟩
        have := hs3.length_le
        show ((p1.dropWhile (fun c => !isdigits c)).dropWhile isdigits).length < range.length
        omega
      · simp only [ne_eq, hc, not_false_eq_true, if_true] at hr
        cases hr
        refine ⟨c :: p1, rfl, hs2.trans hs1, fun _ => ?_⟩
        simp only [List.length_cons]
        omega

/-- C19: for every range, the end pointer written by `ParsePair` lies between
`begin` and `end` (it is a pointer into the range, or `end`), and strictly after
`begin` when the count is 1 or 2; on a buffer with a NUL at or after `end`
`ParsePair` returns; hence re-invoking `ParsePair` from the returned end pointer
for as long as the count is 1 or 2 cannot go on forever: the step from a
pointer to the next one is a well-founded relation. -/
theorem ParsePair_progress (T1 T2 : NumType) (endp : List Char) :
    (∀ (range : List Char) (v1 : T1.Val) (v2 : T2.Val) (r : PairResult T1 T2),
        ParsePair T1 T2 (range ++ endp) endp v1 v2 = some r →
        ∃ X, r.endptr = X ++ endp ∧ X <:+ range
          ∧ ((r.count = 1 ∨ r.count = 2) → X.length < range.length))
      ∧ (∀ (range : List Char) (v1 : T1.Val) (v2 : T2.Val), NUL ∈ endp →
          ∃ r, ParsePair T1 T2 (range ++ endp) endp v1 v2 = some r)
      ∧ WellFounded (fun (next p : List Char) =>
          ∃ (range : List Char) (v1 : T1.Val) (v2 : T2.Val) (r : PairResult T1 T2),
            p = range ++ endp ∧ ParsePair T1 T2 p endp v1 v2 = some r
              ∧ (r.count = 1 ∨ r.count = 2) ∧ r.endptr = next) := by
  refine ⟨fun range v1 v2 r hr => ParsePair_endptr T1 T2 range endp v1 v2 r hr,
    fun range v1 v2 h => ParsePair_returns T1 T2 range endp v1 v2 h, ?_⟩
  refine Subrelation.wf ?_ (InvImage.wf List.length Nat.lt_wfRel.wf)
  rintro next p ⟨range, v1, v2, r, rfl, hr, hcount, rfl⟩
  obtain ⟨X, hX, -, hlt⟩ := ParsePair_endptr T1 T2 range endp v1 v2 r hr
  show r.endptr.length < (range ++ endp).length
  rw [hX, List.length_append, List.length_append]
  have := hlt hcount
  omega

set_option maxRecDepth 100000 in
theorem ParsePair_progress_witness :
    (∃ X, (" x".toList ++ [NUL]) = X ++ [NUL] ∧ X <:+ "3:5 x".toList
        ∧ (((2 : Int) = 1 ∨ (2 : Int) = 2) → X.length < "3:5 x".toList.length))
      ∧ ParsePair (.int .int32_t) (.int .int32_t) ("3:5 x".toList ++ [NUL]) [NUL] 0 0
        = some ⟨2, " x".toList ++ [NUL], 3, 5⟩ :=
  ⟨(ParsePair_progress (.int .int32_t) (.int .int32_t) [NUL]).1 "3:5 x".toList 0 0
      ⟨2, " x".toList ++ [NUL], 3, 5⟩ (by decide), by decide⟩

/-! ## A `:` before the first token -/

/-- C18 (amended): a `:` that appears before any digit-like character is
skipped as an ordinary separator: for every range of the form `pre ++ d` where
`pre` contains no digit-like character (it may contain `:`), `d` is a non-empty
run of digits representable in the integer output type `T1` that ends the
range, and the character stored at `end` is not a digit (for instance the NUL
terminator), `ParsePair` returns 1, writes the value of `d` to `v1`, sets the
end pointer to `end` and leaves `v2` unchanged. -/
theorem ParsePair_leading_colon (T1 : IntOut) (T2 : NumType) (pre d endp : List Char)
    (v1 : Int) (v2 : T2.Val) (hpre : ∀ x ∈ pre, isdigits x = false) (hne : d ≠ [])
    (hd : ∀ x ∈ d, isdigit x = true) (hr : T1.inRange (positional 10 d))
    (hend : ∃ c, endp.head? = some c ∧ isdigit c = false) :
    ParsePair (.int T1) T2 (pre ++ d ++ endp) endp v1 v2
      = some ⟨1, endp, positional 10 d, v2⟩ := by
  rw [ParsePair_range]
  have hs : signedDecimal [] d = positional 10 d := by simp [signedDecimal]
  have hD1 : (pre ++ d).dropWhile (fun c => !isdigits c) = d :=
    dropWhile_append_stop _ _ _ (fun x hx => not_isdigits_apply (hpre x hx))
      (fun c hc => not_isdigits_apply_false
        (token_head_isdigits [] d [] (Or.inl rfl) hne hd c (by simpa using hc)))
  have hD2 : d.dropWhile isdigits = [] :=
    List.dropWhile_eq_nil_iff.2 (fun x hx => isdigits_of_isdigit (hd x hx))
  obtain ⟨c, hc, hcd⟩ := hend
  obtain ⟨rest, rfl⟩ : ∃ rest, endp = c :: rest := by
    cases endp with
    | nil => cases hc
    | cons y ys =>
      simp only [List.head?_cons, Option.some.injEq] at hc
      exact ⟨ys, by rw [hc]⟩
  have hS : ∀ q, Str2Type (.int T1) (d ++ c :: rest) q = some (positional 10 d) := fun q => by
    have h := Str2TInt_token T1 [] d c rest q (Or.inl rfl) hne hd hcd (by rw [hs]; exact hr)
    simpa [hs, Str2Type] using h
  rw [hD1, if_neg hne, hD2, hS]
  rfl

set_option maxRecDepth 100000 in
theorem ParsePair_leading_colon_witness :
    ParsePair (.int .int32_t) .float ("  :".toList ++ "9".toList ++ [NUL]) [NUL] 0 (1 / 2)
      = some ⟨1, [NUL], 9, 1 / 2⟩ :=
  ParsePair_leading_colon .int32_t .float "  :".toList "9".toList [NUL] 0 (1 / 2)
    (by decide) (by decide) (by decide) (by decide) ⟨NUL, rfl, by decide⟩

/-- C18 (as stated) fails when the range is not followed by a non-digit: the
range `"  :9"` inside the buffer `"  :95"` has the stated form, with
`pre = "  :"` and `d = "9"` of value 9 ending the range, but the conversion
ignores `end` and reads on, so `v1` receives 95. -/
theorem ParsePair_leading_colon_counterexample :
    ("  :".toList.all (fun x => !isdigits x) = true ∧ "9".toList.all isdigit = true
        ∧ positional 10 "9".toList = 9)
      ∧ ParsePair (.int .int32_t) (.int .int32_t)
          ("  :".toList ++ "9".toList ++ ("5".toList ++ [NUL])) ("5".toList ++ [NUL]) 0 0
        = some ⟨1, "5".toList ++ [NUL], 95, 0⟩ := by
  decide

/-! ## The second slot of `ParsePair` -/

theorem floatDigits_append_stop (xs : List Char) (c : Char) (rest : List Char) (value : Rat)
    (hc : isdigit c = false) :
    floatDigits (xs ++ c :: rest) value
      = some (hornerQ (xs.takeWhile isdigit) value, xs.dropWhile isdigit ++ c :: rest) := by
  induction xs generalizing value with
  | nil => simp [floatDigits, hornerQ, hc]
  | cons x xs ih =>
    cases hx : isdigit x with
    | true => simp [floatDigits, hornerQ, hx, ih, List.takeWhile_cons, List.dropWhile_cons]
    | false => simp [floatDigits, hornerQ, hx, List.takeWhile_cons, List.dropWhile_cons]

theorem fracDigits_append_stop (xs : List Char) (c : Char) (rest : List Char)
    (val2 pow10 : Int) (hc : isdigit c = false) :
    fracDigits (xs ++ c :: rest) val2 pow10
      = some ((fracAcc (xs.takeWhile isdigit) val2 pow10).1,
          (fracAcc (xs.takeWhile isdigit) val2 pow10).2, xs.dropWhile isdigit ++ c :: rest) := by
  induction xs generalizing val2 pow10 with
  | nil => simp [fracDigits, fracAcc, hc]
  | cons x xs ih =>
    cases hx : isdigit x with
    | true => simp [fracDigits, fracAcc, hx, ih, List.takeWhile_cons, List.dropWhile_cons]
    | false => simp [fracDigits, fracAcc, hx, List.takeWhile_cons, List.dropWhile_cons]

theorem fracPart_append_stop (value : Rat) (ys : List Char) (c : Char) (rest : List Char)
    (hc : isdigit c = false) (hdot : c ≠ '.') :
    fracPart value (ys ++ c :: rest) = some (fracValue value ys, fracTail ys ++ c :: rest) := by
  cases ys with
  | nil => simp [fracPart, fracValue, fracTail, hdot]
  | cons y ys =>
    by_cases hy : y = '.'
    · subst hy
      simp [fracPart, fracValue, fracTail, fracDigits_append_stop ys c rest 0 1 hc]
    · simp [fracPart, fracValue, fracTail, hy]

theorem exponPart_append_noexp (value : Rat) (zs : List Char) (c : Char) (rest : List Char)
    (hz : ∀ z ∈ zs, z ≠ 'e' ∧ z ≠ 'E') (hc : c ≠ 'e' ∧ c ≠ 'E') :
    exponPart value (zs ++ c :: rest) = some (value, zs ++ c :: rest) := by
  cases zs with
  | nil => simp [exponPart, hc.1, hc.2]
  | cons z zs =>
    obtain ⟨h1, h2⟩ := hz z (List.mem_cons_self _ _)
    simp [exponPart, h1, h2]

theorem ne_exp_of_isdigits {c : Char} (h : isdigits c = true) : c ≠ 'e' ∧ c ≠ 'E' := by
  constructor <;> (rintro rfl; revert h; decide)

/-- The run of `strtof` on a token of digit-like characters followed by a
character that is neither digit-like nor an exponent marker: the value depends
on the token only and the end pointer is inside the token or at the character
that follows it. -/
theorem strtof_token (t0 : Char) (ts : List Char) (c : Char) (rest : List Char)
    (htok : ∀ x ∈ t0 :: ts, isdigits x = true) (hc : isdigits c = false)
    (he : c ≠ 'e' ∧ c ≠ 'E') :
    strtof (t0 :: ts ++ c :: rest)
      = some (if t0 = '-'
          then -fracValue (hornerQ ((stripSign (t0 :: ts)).takeWhile isdigit) 0)
            ((stripSign (t0 :: ts)).dropWhile isdigit)
          else fracValue (hornerQ ((stripSign (t0 :: ts)).takeWhile isdigit) 0)
            ((stripSign (t0 :: ts)).dropWhile isdigit),
        fracTail ((stripSign (t0 :: ts)).dropWhile isdigit) ++ c :: rest) := by
  have h0 : isdigits t0 = true := htok t0 (List.mem_cons_self _ _)
  have hcd : isdigit c = false := isdigit_false_of_isdigits hc
  have hdot : c ≠ '.' := by rintro rfl; revert hc; decide
  have h1 : skipSpace (t0 :: ts ++ c :: rest) = some (t0 :: ts ++ c :: rest) := by
    simp [skipSpace, isspace_false_of_isdigits h0]
  have hsuf : fracTail ((stripSign (t0 :: ts)).dropWhile isdigit) <:+ t0 :: ts :=
    ((fracTail_suffix _).trans (List.dropWhile_suffix isdigit)).trans (stripSign_suffix _)
  have hz : ∀ z ∈ fracTail ((stripSign (t0 :: ts)).dropWhile isdigit), z ≠ 'e' ∧ z ≠ 'E' :=
    fun z hz => ne_exp_of_isdigits (htok z (hsuf.subset hz))
  unfold strtof
  rw [h1]
  simp only [Option.bind_eq_bind, Option.some_bind]
  rw [getSign_append_cons]
  simp only [Option.some_bind]
  rw [floatDigits_append_stop _ c rest 0 hcd]
  simp only [Option.some_bind]
  rw [fracPart_append_stop _ _ c rest hcd hdot]
  simp only [Option.some_bind]
  rw [exponPart_append_noexp _ _ c rest hz he]
  simp only [Option.some_bind, Option.pure_def]
  by_cases hm : t0 = '-' <;> simp [hm]

/-- The value that `ParsePair` writes to `v1` is what `Str2Type<T1>` returns at
the start of the first digit-like run. -/
theorem ParsePair_v1 (T1 T2 : NumType) (range endp : List Char) (v1 : T1.Val) (v2 : T2.Val)
    (r : PairResult T1 T2) (hr : ParsePair T1 T2 (range ++ endp) endp v1 v2 = some r)
    (hd : range.dropWhile (fun c => !isdigits c) ≠ []) :
    Str2Type T1 (range.dropWhile (fun c => !isdigits c) ++ endp)
      ((range.dropWhile (fun c => !isdigits c)).dropWhile isdigits ++ endp) = some r.v1 := by
  rw [ParsePair_range, if_neg hd] at hr
  obtain ⟨w1, hw1, hr⟩ := Option.bind_eq_some.1 hr
  rw [hw1]
  congr 1
  split at hr
  · cases hr; rfl
  · split at hr
    · cases hr; rfl
    · obtain ⟨w2, -, hr⟩ := Option.bind_eq_some.1 hr
      cases hr; rfl

/-- C14 (amended): with `T1 = float`, for every range ending at the NUL
terminator of the buffer in which a digit-like run `[p, q)` is found, when the
character at `q` is not `e` or `E`, `ParsePair` returns and the `v1` it writes
equals `strtof` applied to the run taken alone as a NUL-terminated string; the
conversion stops inside the run or at `q`, so no character at or after `q`
(hence none at or after the reported end pointer) influences `v1`. -/
theorem ParsePair_float_v1 (T2 : NumType) (range after : List Char) (v1 : Rat) (v2 : T2.Val)
    (htok : range.dropWhile (fun c => !isdigits c) ≠ [])
    (hnext : ∀ c ∈ ((range.dropWhile (fun c => !isdigits c)).dropWhile isdigits
        ++ NUL :: after).head?, c ≠ 'e' ∧ c ≠ 'E') :
    ∃ (r : PairResult .float T2) (x : Rat) (e : List Char),
      ParsePair .float T2 (range ++ NUL :: after) (NUL :: after) v1 v2 = some r
        ∧ e <:+ (range.dropWhile (fun c => !isdigits c)).takeWhile isdigits
        ∧ strtof ((range.dropWhile (fun c => !isdigits c)).takeWhile isdigits ++ [NUL])
          = some (x, e ++ [NUL])
        ∧ strtof (range.dropWhile (fun c => !isdigits c) ++ NUL :: after)
          = some (x, e ++ ((range.dropWhile (fun c => !isdigits c)).dropWhile isdigits
              ++ NUL :: after))
        ∧ r.v1 = x := by
  obtain ⟨r, hr⟩ := ParsePair_returns .float T2 range (NUL :: after) v1 v2
    (List.mem_cons_self _ _)
  have hv1 := ParsePair_v1 .float T2 range (NUL :: after) v1 v2 r hr htok
  generalize hD : range.dropWhile (fun c => !isdigits c) = D at htok hnext hv1 ⊢
  have hhead := dropWhile_head_false (fun c => !isdigits c) range
  rw [hD] at hhead
  have hsplit := List.takeWhile_append_dropWhile isdigits D
  have hall : ∀ x ∈ D.takeWhile isdigits, isdigits x = true :=
    fun x hx => List.mem_takeWhile_imp hx
  obtain ⟨t0, ts, htk⟩ : ∃ t0 ts, D.takeWhile isdigits = t0 :: ts := by
    cases D with
    | nil => exact absurd rfl htok
    | cons d ds =>
      have hd : isdigits d = true := by simpa using hhead d rfl
      exact ⟨d, ds.takeWhile isdigits, by rw [List.takeWhile_cons, if_pos hd]⟩
  obtain ⟨c, rest, hcr, hcd⟩ : ∃ c rest, D.dropWhile isdigits ++ NUL :: after = c :: rest
      ∧ isdigits c = false := by
    have hstop := dropWhile_head_false isdigits D
    cases hR : D.dropWhile isdigits with
    | nil => exact ⟨NUL, after, rfl, NUL_not_isdigits⟩
    | cons y ys =>
      rw [hR] at hstop
      exact ⟨y, ys ++ NUL :: after, rfl, hstop y rfl⟩
  have hce : c ≠ 'e' ∧ c ≠ 'E' := hnext c (by rw [hcr]; rfl)
  rw [htk] at hall
  have hbuf := strtof_token t0 ts c rest hall hcd hce
  have halone := strtof_token t0 ts NUL [] hall NUL_not_isdigits (by decide)
  have hsuf : fracTail ((stripSign (t0 :: ts)).dropWhile isdigit) <:+ t0 :: ts :=
    ((fracTail_suffix _).trans (List.dropWhile_suffix isdigit)).trans (stripSign_suffix _)
  have hDe : D ++ NUL :: after = t0 :: ts ++ c :: rest := by
    rw [← hcr, ← htk, ← List.append_assoc, hsplit]
  generalize fracTail ((stripSign (t0 :: ts)).dropWhile isdigit) = e at hbuf halone hsuf
  generalize (if t0 = '-'
    then -fracValue (hornerQ ((stripSign (t0 :: ts)).takeWhile isdigit) 0)
      ((stripSign (t0 :: ts)).dropWhile isdigit)
    else fracValue (hornerQ ((stripSign (t0 :: ts)).takeWhile isdigit) 0)
      ((stripSign (t0 :: ts)).dropWhile isdigit)) = x at hbuf halone
  refine ⟨r, x, e, hr, ?_, ?_, ?_, ?_⟩
  · rw [htk]; exact hsuf
  · rw [htk]; exact halone
  · rw [hDe, hcr]; exact hbuf
  · rw [hDe] at hv1
    simp only [Str2Type, atof, hbuf, Option.map_some', Option.some.injEq] at hv1
    exact hv1.symm

set_option maxRecDepth 100000 in
theorem ParsePair_float_v1_witness :
    (∃ (r : PairResult .float (.int .int32_t)) (x : Rat) (e : List Char),
      ParsePair .float (.int .int32_t) ("a1.5:2".toList ++ NUL :: []) (NUL :: []) 0 0 = some r
        ∧ e <:+ ("a1.5:2".toList.dropWhile (fun c => !isdigits c)).takeWhile isdigits
        ∧ strtof (("a1.5:2".toList.dropWhile (fun c => !isdigits c)).takeWhile isdigits
            ++ [NUL]) = some (x, e ++ [NUL])
        ∧ strtof ("a1.5:2".toList.dropWhile (fun c => !isdigits c) ++ NUL :: [])
          = some (x, e ++ (("a1.5:2".toList.dropWhile (fun c => !isdigits c)).dropWhile isdigits
              ++ NUL :: []))
        ∧ r.v1 = x)
      ∧ ParsePair .float (.int .int32_t) ("a1.5:2".toList ++ NUL :: []) (NUL :: []) 0 0
        = some ⟨2, [NUL], 3 / 2, 2⟩
      ∧ strtof ("1.5".toList ++ [NUL]) = some (3 / 2, [NUL]) :=
  ⟨ParsePair_float_v1 (.int .int32_t) "a1.5:2".toList [] 0 0 (by decide) (by decide),
    by decide!, by decide!⟩

/-- C14 (as stated) fails at the range `"1e5"`, which ends at the NUL
terminator: the digit-like run found in steps 1-2 is `"1"`, whose conversion
taken alone is 1, and the reported end pointer is at the `e`; but `v1`
receives 100000, converted from the characters `e5` at and after the reported
end pointer. -/
theorem ParsePair_float_v1_counterexample :
    ParsePair .float (.int .int32_t) ("1e5".toList ++ [NUL]) [NUL] 0 0
        = some ⟨1, "e5".toList ++ [NUL], 100000, 0⟩
      ∧ ("1e5".toList.dropWhile (fun c => !isdigits c)).takeWhile isdigits = "1".toList
      ∧ strtof ("1".toList ++ [NUL]) = some (1, [NUL])
      ∧ ParsePair .float (.int .int32_t) ("1".toList ++ [NUL]) [NUL] 0 0
        = some ⟨1, [NUL], 1, 0⟩ :=
  ⟨by decide!, by decide, by decide!, by decide!⟩

end dmlc.data
